import Mathlib

/-!
Shallow embedding of the gector HNSW index engine (src/engine.go).

Modelling conventions:
* Go maps (`map[string]*HNSWNode`) are association lists with pairwise
  distinct keys; the list order is the map's iteration order (Go map
  iteration order is unspecified, so theorems that depend on it either
  quantify over states or exhibit one realizable order).
* Go pointers (`*HNSWNode`) are indices into an allocation arena
  `heap : List HNSWNode`; mutating a node through a pointer is `List.set`
  on the arena, which makes the Go aliasing (one node object shared by
  several level tables and the flat table) visible to every table holding
  that index.
* Go runtime panics (index out of range, slice bounds out of range, nil
  pointer dereference) are modelled by `Option`: `none` is a panic.
* Vector components are ℤ instead of float64 (the engine only subtracts,
  multiplies, adds and compares component values, so any ordered-ring
  subdomain of the reals models the arithmetic; ℤ is the one this
  toolchain's kernel evaluates), and the engine compares distances only
  with `<`, so the model keeps the squared Euclidean distance:
  `math.Sqrt` is strictly monotone on nonnegative reals, hence every
  comparison the engine performs agrees with the comparison of the
  squared distances.
* `rand.Float64() < 0.5` draws are an oracle list of Booleans passed to
  the operations; quantifying over the list quantifies over the coin
  outcomes.
-/

namespace Gector

/-- The Vector value type of the repository: caller-assigned ID and the
numeric components. -/
structure Vector where
  ID : String
  Values : List ℤ
deriving DecidableEq, Repr

/-- HNSWNode from src/engine.go: ID, neighbor ID list, and the stored
vector. -/
structure HNSWNode where
  ID : String
  Neighbors : List String
  Vector : Gector.Vector
deriving DecidableEq, Repr

/-- HNSW from src/engine.go. `heap` is the pointer arena (see module
comment); `nodes` and each entry of `levels` are Go maps from node ID to a
node pointer (an arena index). -/
structure HNSW where
  heap : List HNSWNode
  nodes : List (String × Nat)
  levels : List (List (String × Nat))
  MaxNeighbors : Int
  MaxLevels : Int
deriving DecidableEq, Repr

/-- Go map read `m[k]` (the pointer, when the key is present). -/
def mapGet (m : List (String × Nat)) (k : String) : Option Nat :=
  (m.find? (fun p => p.1 = k)).map (fun p => p.2)

/-- Go map assignment `m[k] = v`: replace the entry in place when the key
is present, otherwise append (some realizable iteration order). -/
def mapSet : List (String × Nat) → String → Nat → List (String × Nat)
  | [], k, v => [(k, v)]
  | p :: rest, k, v => if p.1 = k then (k, v) :: rest else p :: mapSet rest k v

/-- Go `delete(m, k)`. Deleting an absent key leaves the map unchanged. -/
def mapDelete (m : List (String × Nat)) (k : String) : List (String × Nat) :=
  m.filter (fun p => ¬ p.1 = k)

/-- The loop body of euclideanDistance: the Go loop runs `i` over
`0 ..< len(v1.Values)` and reads `v2.Values[i]`, so it panics (`none`)
exactly when `v2` runs out first. The accumulated value is the sum of
squared differences (see the module comment on dropping `math.Sqrt`). -/
def distAux : List ℤ → List ℤ → Option ℤ
  | [], _ => some 0
  | _ :: _, [] => none
  | x :: xs, y :: ys => (distAux xs ys).map (fun s => (x - y) * (x - y) + s)

/-- euclideanDistance from src/engine.go (squared, see module comment). -/
def euclideanDistance (v1 v2 : Gector.Vector) : Option ℤ :=
  distAux v1.Values v2.Values

/-- Swap the adjacent positions `j` and `j+1` of a list (Go
`data.Swap(j, j-1)` with indices shifted by one). Out-of-range indices
leave the list unchanged (never reached by the engine). -/
def swapAt : List α → Nat → List α
  | a :: b :: rest, 0 => b :: a :: rest
  | x :: rest, Nat.succ n => x :: swapAt rest n
  | xs, _ => xs

/-- The inner loop of Go insertionSort for one start index, under the
comparator of src/engine.go: the less closure reads the `distances` slice,
which the sort does NOT reorder (only the first slice is swapped), so the
comparisons consult the fixed list `d` by absolute position. -/
def sinkStep (d : List ℤ) (xs : List α) : Nat → List α
  | 0 => xs
  | Nat.succ j =>
    if d.getD (j + 1) 0 < d.getD j 0 then sinkStep d (swapAt xs j) j else xs

/-- Go sort.SliceStable as called in src/engine.go: the slice being sorted
is permuted while the distance slice read by the comparator stays fixed.
For slices of length at most 20, Go stableSort is exactly one
insertionSort pass, which this definition reproduces; every
order-sensitive theorem below stays in that regime, and the remaining
theorems use only that the result is a permutation of the input. -/
def goSortFixed (d : List ℤ) (xs : List α) : List α :=
  (List.range xs.length).foldl (fun acc i => sinkStep d acc i) xs

/-- The neighbor-collection loop of findNeighbors: iterate the level table
in iteration order, skip the entry whose key equals the inserted node's
ID, and record (id, distance) pairs. A dangling arena index or a distance
panic is `none` (neither occurs in well-formed states). -/
def collectNeighborDists (h : HNSW) (node : HNSWNode) :
    List (String × Nat) → Option (List (String × ℤ))
  | [] => some []
  | (id, ref) :: rest =>
    if node.ID = id then collectNeighborDists h node rest
    else do
      let other ← h.heap.get? ref
      let dist ← euclideanDistance node.Vector other.Vector
      let tail ← collectNeighborDists h node rest
      some ((id, dist) :: tail)

/-- The final truncation of findNeighbors: `neighbors[:MaxNeighbors]`
panics when `MaxNeighbors` is negative and the guard fires. -/
def truncateNeighbors (mx : Int) (ns : List String) : Option (List String) :=
  if (ns.length : Int) > mx then
    if mx < 0 then none else some (ns.take mx.toNat)
  else some ns

/-- findNeighbors from src/engine.go. -/
def findNeighbors (h : HNSW) (node : HNSWNode) (level : Nat) :
    Option (List String) := do
  let lvl ← h.levels.get? level
  let pairs ← collectNeighborDists h node lvl
  let sorted := goSortFixed (pairs.map (fun p => p.2)) (pairs.map (fun p => p.1))
  truncateNeighbors h.MaxNeighbors sorted

/-- The level-table write `hnsw.levels[level][node.ID] = node` of
addNodeToLevel. -/
def levelInsert (h : HNSW) (id : String) (ref : Nat) (level : Nat) : HNSW :=
  { h with levels := h.levels.set level (mapSet (h.levels.getD level []) id ref) }

/-- addNodeToLevel from src/engine.go. The nil-map lazy initialization is
invisible in the model (a nil map and an empty map behave identically in
this code, since the only write is preceded by the initialization). The
level access `hnsw.levels[level]` panics for an out-of-range level. The
assignment `node.Neighbors = neighbors` is a store through the shared
pointer, hence `List.set` on the arena. -/
def addNodeToLevel (h : HNSW) (ref : Nat) (level : Int) : Option HNSW :=
  if 0 ≤ level ∧ level < (h.levels.length : Int) then do
    let node ← h.heap.get? ref
    let neighbors ← findNeighbors (levelInsert h node.ID ref level.toNat) node level.toNat
    some { levelInsert h node.ID ref level.toNat with
      heap := h.heap.set ref { node with Neighbors := neighbors } }
  else none

/-- The probabilistic propagation loop of AddVector
(`for level > 0 && rand.Float64() < 0.5`), with the coin draws supplied as
an oracle list. The Go loop variable `level` is the Nat argument: the loop
only ever runs at nonnegative levels (the preceding bottom-level insertion
already panicked otherwise), the guard `level > 0` is the `Nat.succ`
pattern, and one iteration inserts at `level - 1`. -/
def addLoop (ref : Nat) : HNSW → Nat → List Bool → Option HNSW
  | h, 0, _ => some h
  | h, Nat.succ l, coins =>
    if coins.headD false then
      (addNodeToLevel h ref (l : Int)).bind (fun h' => addLoop ref h' l coins.tail)
    else some h

/-- AddVector from src/engine.go: allocate a fresh node, insert it at the
bottom level, propagate upward by coin flips, then register the (single,
shared) node object in the flat table. The `toNat` handed to `addLoop` is
faithful: when `MaxLevels - 1` is negative the bottom-level insertion has
already panicked. -/
def AddVector (h : HNSW) (id : String) (vec : Gector.Vector) (coins : List Bool) :
    Option HNSW := do
  let ref := h.heap.length
  let h0 : HNSW := { h with heap := h.heap ++ [{ ID := id, Neighbors := [], Vector := vec }] }
  let h1 ← addNodeToLevel h0 ref (h0.MaxLevels - 1)
  let h2 ← addLoop ref h1 (h0.MaxLevels - 1).toNat coins
  some { h2 with nodes := mapSet h2.nodes id ref }

/-- NewHNSW from src/engine.go. `make([]map[string]*HNSWNode, n)` panics
for a negative length and otherwise yields `n` nil maps (empty tables in
the model). -/
def NewHNSW (maxNeighbors maxLevels : Int) : Option HNSW :=
  if 0 ≤ maxLevels then
    some { heap := [], nodes := [],
           levels := List.replicate maxLevels.toNat [],
           MaxNeighbors := maxNeighbors, MaxLevels := maxLevels }
  else none

/-- DeleteVector from src/engine.go: the loop deletes the ID from
`levels[0] .. levels[MaxLevels-1]` (panicking when `MaxLevels` exceeds the
slice length, which no reachable state produces; a negative `MaxLevels`
runs zero iterations), then deletes it from the flat table and returns
nil. -/
def DeleteVector (h : HNSW) (id : String) : Option HNSW :=
  if h.MaxLevels ≤ (h.levels.length : Int) then
    some { h with
      levels := (h.levels.take h.MaxLevels.toNat).map (fun lvl => mapDelete lvl id)
                  ++ h.levels.drop h.MaxLevels.toNat,
      nodes := mapDelete h.nodes id }
  else none

/-- UpdateVector from src/engine.go: a missing ID reports the not-found
error; otherwise delete then re-insert under the same ID. The outer
`Option` is a panic during the re-insertion, the inner `Except` is the Go
error value. -/
def UpdateVector (h : HNSW) (id : String) (newVector : Gector.Vector)
    (coins : List Bool) : Option (Except String HNSW) :=
  if (mapGet h.nodes id).isSome then do
    let h1 ← DeleteVector h id
    let h2 ← AddVector h1 id newVector coins
    some (Except.ok h2)
  else some (Except.error ("vector with id " ++ id ++ " not found"))

/-- The per-level candidate collection of NearestNeighbors: iterate the
level table, record `(node.ID, distance to query)` in iteration order. -/
def collectQueryDists (h : HNSW) (query : Gector.Vector) :
    List (String × Nat) → Option (List (String × ℤ))
  | [] => some []
  | (_, ref) :: rest => do
    let node ← h.heap.get? ref
    let dist ← euclideanDistance query node.Vector
    let tail ← collectQueryDists h query rest
    some ((node.ID, dist) :: tail)

/-- The result-collection loop of NearestNeighbors: look each candidate ID
up in the flat table and append its vector. A missing flat entry is a nil
pointer whose `.Vector` dereference panics. The source also appends the
candidate's distance to a `bestDistances` slice that is never read
afterwards, so the model omits it. -/
def pickLoop (h : HNSW) : List String → List Gector.Vector → Option (List Gector.Vector)
  | [], acc => some acc
  | id :: rest, acc => do
    let ref ← mapGet h.nodes id
    let node ← h.heap.get? ref
    pickLoop h rest (acc ++ [node.Vector])

/-- One level iteration of NearestNeighbors: collect, sort with the fixed
distance list (same comparator aliasing as findNeighbors), then take up to
`k` candidates (`for i := 0; i < k && i < len(candidates); i++`). -/
def levelStep (h : HNSW) (query : Gector.Vector) (k : Int)
    (acc : List Gector.Vector) (lvl : List (String × Nat)) :
    Option (List Gector.Vector) := do
  let pairs ← collectQueryDists h query lvl
  let candidates := goSortFixed (pairs.map (fun p => p.2)) (pairs.map (fun p => p.1))
  pickLoop h (candidates.take (min k.toNat candidates.length)) acc

/-- The level countdown of NearestNeighbors
(`for level := MaxLevels-1; level >= 0; level--`): the Nat argument is the
number of levels still to scan, so the Go level of one iteration is its
predecessor, and the access `hnsw.levels[level]` panics when that level is
out of range of the levels slice. -/
def levelsLoop (h : HNSW) (query : Gector.Vector) (k : Int) :
    Nat → List Gector.Vector → Option (List Gector.Vector)
  | 0, acc => some acc
  | Nat.succ l, acc =>
    if l < h.levels.length then
      (levelStep h query k acc (h.levels.getD l [])).bind
        (fun acc' => levelsLoop h query k l acc')
    else none

/-- NearestNeighbors from src/engine.go: scan levels from the bottom
(highest index `MaxLevels - 1`, i.e. `MaxLevels.toNat` levels in total,
none when `MaxLevels ≤ 0`) down to 0, then truncate the accumulated result
to `k` (`bestNeighbors[:k]` panics for a negative `k` when the guard
fires). -/
def NearestNeighbors (h : HNSW) (query : Gector.Vector) (k : Int) :
    Option (List Gector.Vector) := do
  let best ← levelsLoop h query k h.MaxLevels.toNat []
  if (best.length : Int) > k then
    if k < 0 then none else some (best.take k.toNat)
  else some best

/-- Well-formedness of an index state: the level slice is sized by
MaxLevels, the configuration scalars are nonnegative, every table entry
points into the arena, and every allocated node stores a vector of the
common dimension d. All states reachable from NewHNSW with nonnegative
arguments and equal-dimension insertions satisfy this. -/
structure WF (h : HNSW) (d : Nat) : Prop where
  levels_len : h.levels.length = h.MaxLevels.toNat
  maxLevels_nonneg : 0 ≤ h.MaxLevels
  maxNeighbors_nonneg : 0 ≤ h.MaxNeighbors
  level_refs : ∀ lvl ∈ h.levels, ∀ p ∈ lvl, p.2 < h.heap.length
  flat_refs : ∀ p ∈ h.nodes, p.2 < h.heap.length
  dims : ∀ n ∈ h.heap, n.Vector.Values.length = d

/-- The per-node invariant of claim C7: the neighbor list holds at most
MaxNeighbors entries and never the node's own ID. -/
def NodeOK (mx : Int) (n : HNSWNode) : Prop :=
  (n.Neighbors.length : Int) ≤ mx ∧ n.ID ∉ n.Neighbors

/-- NodeOK for every node ever allocated (a superset of the stored
nodes). -/
def NInv (h : HNSW) : Prop :=
  0 ≤ h.MaxNeighbors ∧ ∀ n ∈ h.heap, NodeOK h.MaxNeighbors n

/-- Index states producible from NewHNSW (with maxNeighbors ≥ 0 and
maxLevels ≥ 1) by the public operations. -/
inductive Reachable : HNSW → Prop
  | new (mN mL : Int) (hN : 0 ≤ mN) (hL : 1 ≤ mL) (h : HNSW)
      (hnew : NewHNSW mN mL = some h) : Reachable h
  | add (h : HNSW) (id : String) (vec : Gector.Vector) (coins : List Bool)
      (h' : HNSW) (hr : Reachable h)
      (hadd : AddVector h id vec coins = some h') : Reachable h'
  | update (h : HNSW) (id : String) (vec : Gector.Vector) (coins : List Bool)
      (h' : HNSW) (hr : Reachable h)
      (hupd : UpdateVector h id vec coins = some (Except.ok h')) : Reachable h'
  | delete (h : HNSW) (id : String) (h' : HNSW) (hr : Reachable h)
      (hdel : DeleteVector h id = some h') : Reachable h'

/-- The invariant of claim C9: the level slice is sized by MaxLevels,
every flat-table entry points into the arena, and every node ID present in
some level table is a key of the flat table. -/
def INV9 (h : HNSW) : Prop :=
  h.levels.length = h.MaxLevels.toNat ∧
  (∀ p ∈ h.nodes, p.2 < h.heap.length) ∧
  (∀ lvl ∈ h.levels, ∀ p ∈ lvl, (mapGet h.nodes p.1).isSome)

/-- Bookkeeping relating the state inside AddVector (after the fresh node
was appended as arena cell `ref`) to later states of the insertion: the
table shapes are unchanged, the flat table is untouched, the arena cell at
`ref` still holds the inserted ID and vector (only its Neighbors field is
rewritten), other arena cells are untouched, and every level-table entry
is either inherited or the pair (id, ref). -/
structure AddTrack (h0 : HNSW) (ref : Nat) (id : String) (vec : Gector.Vector)
    (h : HNSW) : Prop where
  heap_len : h.heap.length = h0.heap.length
  levels_len : h.levels.length = h0.levels.length
  nodes_eq : h.nodes = h0.nodes
  maxN : h.MaxNeighbors = h0.MaxNeighbors
  maxL : h.MaxLevels = h0.MaxLevels
  node : ∃ n, h.heap.get? ref = some n ∧ n.ID = id ∧ n.Vector = vec
  heap_off : ∀ r, r ≠ ref → h.heap.get? r = h0.heap.get? r
  level_keys : ∀ lvl' ∈ h.levels, ∀ p ∈ lvl',
    (∃ lvl ∈ h0.levels, p ∈ lvl) ∨ p = (id, ref)

/-- Placement bookkeeping for one insertion: the inserted ID is present in
exactly the levels from `L` (the shallowest level the propagation loop has
reached) down to the bottom, always mapped to the shared arena cell `ref`,
and the arena cell's Neighbors field holds the neighbor list as computed
at level `L` — the last level visited, not the bottom. -/
structure AddPlace (ref : Nat) (id : String) (h : HNSW) (L : Nat) : Prop where
  place : ∀ ℓ : Nat, ℓ < h.levels.length →
    mapGet (h.levels.getD ℓ []) id = if L ≤ ℓ then some ref else none
  nb : ∀ n, h.heap.get? ref = some n → findNeighbors h n L = some n.Neighbors

/-! ### Basic lemmas about the sort model -/

theorem swapAt_perm : ∀ (xs : List α) (j : Nat), (swapAt xs j).Perm xs
  | [], j => by cases j <;> simp [swapAt]
  | [a], j => by cases j <;> simp [swapAt]
  | a :: b :: rest, 0 => List.Perm.swap a b rest
  | a :: b :: rest, Nat.succ n => by
    simpa [swapAt] using (swapAt_perm (b :: rest) n).cons a

theorem sinkStep_perm (d : List ℤ) : ∀ (xs : List α) (j : Nat), (sinkStep d xs j).Perm xs
  | xs, 0 => by simp [sinkStep]
  | xs, Nat.succ j => by
    rw [sinkStep]
    split
    · exact (sinkStep_perm d (swapAt xs j) j).trans (swapAt_perm xs j)
    · exact List.Perm.refl xs

theorem foldl_sinkStep_perm (d : List ℤ) :
    ∀ (l : List Nat) (xs : List α), (l.foldl (fun acc i => sinkStep d acc i) xs).Perm xs
  | [], xs => List.Perm.refl xs
  | i :: l, xs => by
    simpa using (foldl_sinkStep_perm d l (sinkStep d xs i)).trans (sinkStep_perm d xs i)

theorem goSortFixed_perm (d : List ℤ) (xs : List α) : (goSortFixed d xs).Perm xs :=
  foldl_sinkStep_perm d (List.range xs.length) xs

theorem goSortFixed_length (d : List ℤ) (xs : List α) :
    (goSortFixed d xs).length = xs.length :=
  (goSortFixed_perm d xs).length_eq

theorem mem_goSortFixed (d : List ℤ) (xs : List α) (a : α) :
    a ∈ goSortFixed d xs ↔ a ∈ xs :=
  (goSortFixed_perm d xs).mem_iff

/-! ### Basic lemmas about the distance model -/

theorem distAux_eq_none_iff : ∀ xs ys : List ℤ, distAux xs ys = none ↔ ys.length < xs.length
  | [], ys => by simp [distAux]
  | x :: xs, [] => by simp [distAux]
  | x :: xs, y :: ys => by
    simp [distAux, Option.map_eq_none', distAux_eq_none_iff xs ys, Nat.succ_lt_succ_iff]

theorem distAux_isSome (xs ys : List ℤ) (hl : xs.length ≤ ys.length) :
    (distAux xs ys).isSome := by
  rw [Option.isSome_iff_ne_none]
  intro hnone
  exact absurd ((distAux_eq_none_iff xs ys).mp hnone) (by omega)

/-! ### Basic lemmas about the association-list map model -/

theorem mapGet_cons (p : String × Nat) (l : List (String × Nat)) (k : String) :
    mapGet (p :: l) k = if p.1 = k then some p.2 else mapGet l k := by
  by_cases h : p.1 = k <;> simp [mapGet, List.find?_cons, h]

theorem mapGet_mapSet_self : ∀ (m : List (String × Nat)) (k : String) (v : Nat),
    mapGet (mapSet m k v) k = some v
  | [], k, v => by simp [mapSet, mapGet_cons, mapGet]
  | p :: rest, k, v => by
    by_cases h : p.1 = k
    · simp [mapSet, h, mapGet_cons]
    · simp [mapSet, h, mapGet_cons, mapGet_mapSet_self rest k v]

theorem mapGet_mapSet_ne : ∀ (m : List (String × Nat)) (k k' : String) (v : Nat),
    k' ≠ k → mapGet (mapSet m k v) k' = mapGet m k'
  | [], k, k', v, hne => by
    rw [mapSet, mapGet_cons, if_neg (fun hh => hne hh.symm)]
  | p :: rest, k, k', v, hne => by
    by_cases h : p.1 = k
    · rw [mapSet, if_pos h]
      rw [mapGet_cons, mapGet_cons, if_neg (fun hh => hne hh.symm),
        if_neg (fun hh => hne (hh.symm.trans h))]
    · rw [mapSet, if_neg h, mapGet_cons, mapGet_cons,
        mapGet_mapSet_ne rest k k' v hne]

theorem mem_mapSet : ∀ (m : List (String × Nat)) (k : String) (v : Nat) (p : String × Nat),
    p ∈ mapSet m k v → p = (k, v) ∨ p ∈ m
  | [], k, v, p, hp => by
    rw [mapSet, List.mem_singleton] at hp
    exact Or.inl hp
  | q :: rest, k, v, p, hp => by
    by_cases h : q.1 = k
    · rw [mapSet, if_pos h] at hp
      rcases List.mem_cons.mp hp with h1 | h2
      · exact Or.inl h1
      · exact Or.inr (List.mem_cons_of_mem q h2)
    · rw [mapSet, if_neg h] at hp
      rcases List.mem_cons.mp hp with h1 | h2
      · exact Or.inr (h1 ▸ List.mem_cons_self q rest)
      · rcases mem_mapSet rest k v p h2 with h3 | h4
        · exact Or.inl h3
        · exact Or.inr (List.mem_cons_of_mem q h4)

theorem mapDelete_cons_of_eq (p : String × Nat) (rest : List (String × Nat))
    (k : String) (hp : p.1 = k) : mapDelete (p :: rest) k = mapDelete rest k := by
  simp [mapDelete, List.filter_cons, hp]

theorem mapDelete_cons_of_ne (p : String × Nat) (rest : List (String × Nat))
    (k : String) (hp : ¬ p.1 = k) : mapDelete (p :: rest) k = p :: mapDelete rest k := by
  simp [mapDelete, List.filter_cons, hp]

theorem mapGet_mapDelete (m : List (String × Nat)) (k k' : String) :
    mapGet (mapDelete m k) k' = if k' = k then none else mapGet m k' := by
  induction m with
  | nil => by_cases hk : k' = k <;> simp [mapDelete, mapGet, hk]
  | cons p rest ih =>
    by_cases hp : p.1 = k
    · rw [mapDelete_cons_of_eq p rest k hp, ih, mapGet_cons]
      by_cases hk : k' = k
      · rw [if_pos hk, if_pos hk]
      · rw [if_neg hk, if_neg hk, if_neg (fun hh => hk (hh.symm.trans hp))]
    · rw [mapDelete_cons_of_ne p rest k hp, mapGet_cons, mapGet_cons, ih]
      by_cases hpk : p.1 = k'
      · rw [if_pos hpk, if_neg (fun hh => hp (hpk.trans hh)), if_pos hpk]
      · rw [if_neg hpk]
        by_cases hk : k' = k
        · rw [if_pos hk, if_pos hk]
        · rw [if_neg hk, if_neg hk, if_neg hpk]

theorem mapDelete_of_absent (m : List (String × Nat)) (k : String)
    (h : mapGet m k = none) : mapDelete m k = m := by
  rw [mapDelete, List.filter_eq_self]
  intro p hp
  simp only [mapGet, Option.map_eq_none', List.find?_eq_none] at h
  simpa using h p hp

theorem mem_mapDelete (m : List (String × Nat)) (k : String) (p : String × Nat)
    (hp : p ∈ mapDelete m k) : p ∈ m :=
  List.mem_of_mem_filter hp

theorem someBind (a : α) (f : α → Option β) : (some a : Option α) >>= f = f a := rfl

/-! ### Destructuring and tracking lemmas for the insertion path -/

theorem addNodeToLevel_eq (h : HNSW) (ref : Nat) (level : Int) (h' : HNSW)
    (heq : addNodeToLevel h ref level = some h') :
    (0 ≤ level ∧ level < (h.levels.length : Int)) ∧
    ∃ node neighbors,
      h.heap.get? ref = some node ∧
      findNeighbors (levelInsert h node.ID ref level.toNat) node level.toNat
        = some neighbors ∧
      h' = { levelInsert h node.ID ref level.toNat with
        heap := h.heap.set ref { node with Neighbors := neighbors } } := by
  rw [addNodeToLevel] at heq
  by_cases hc : 0 ≤ level ∧ level < (h.levels.length : Int)
  · rw [if_pos hc] at heq
    obtain ⟨node, hnode, heq2⟩ := Option.bind_eq_some.mp heq
    obtain ⟨neighbors, hnb, heq3⟩ := Option.bind_eq_some.mp heq2
    exact ⟨hc, node, neighbors, hnode, hnb, (Option.some.inj heq3).symm⟩
  · rw [if_neg hc] at heq
    cases heq

theorem AddTrack_addNodeToLevel (h0 : HNSW) (ref : Nat) (id : String)
    (vec : Gector.Vector) (h h' : HNSW) (level : Int)
    (tr : AddTrack h0 ref id vec h)
    (heq : addNodeToLevel h ref level = some h') : AddTrack h0 ref id vec h' := by
  obtain ⟨hc, node, ns, hnode, hnb, rfl⟩ := addNodeToLevel_eq h ref level h' heq
  obtain ⟨n, hn, hnid, hnvec⟩ := tr.node
  have hnn : node = n := Option.some.inj (hnode.symm.trans hn)
  subst hnn
  obtain ⟨hlt, -⟩ := List.get?_eq_some.mp hnode
  have hlv : level.toNat < h.levels.length := by omega
  refine ⟨?_, ?_, tr.nodes_eq, tr.maxN, tr.maxL, ?_, ?_, ?_⟩
  · show (h.heap.set ref { node with Neighbors := ns }).length = h0.heap.length
    rw [List.length_set]
    exact tr.heap_len
  · show (h.levels.set level.toNat
        (mapSet (h.levels.getD level.toNat []) node.ID ref)).length = h0.levels.length
    rw [List.length_set]
    exact tr.levels_len
  · refine ⟨{ node with Neighbors := ns }, ?_, hnid, hnvec⟩
    exact List.get?_set_eq_of_lt _ hlt
  · intro r hr
    have hset : (h.heap.set ref { node with Neighbors := ns }).get? r = h.heap.get? r :=
      List.get?_set_ne _ _ (Ne.symm hr)
    exact hset.trans (tr.heap_off r hr)
  · intro lvl' hl' p hp
    have hl2 : lvl' ∈ h.levels.set level.toNat
        (mapSet (h.levels.getD level.toNat []) node.ID ref) := hl'
    rcases List.mem_or_eq_of_mem_set hl2 with hold | hnew
    · exact tr.level_keys lvl' hold p hp
    · subst hnew
      rcases mem_mapSet _ _ _ _ hp with hpr | hpin
      · exact Or.inr (by rw [hpr, hnid])
      · have hmem : h.levels.getD level.toNat [] ∈ h.levels := by
          rw [List.getD_eq_getElem _ _ hlv]
          exact List.getElem_mem hlv
        exact tr.level_keys _ hmem p hpin

theorem AddTrack_addLoop (h0 : HNSW) (ref : Nat) (id : String) (vec : Gector.Vector) :
    ∀ (n : Nat) (coins : List Bool) (h h' : HNSW), AddTrack h0 ref id vec h →
      addLoop ref h n coins = some h' → AddTrack h0 ref id vec h'
  | 0, coins, h, h', tr, heq => by
    rw [addLoop] at heq
    exact (Option.some.inj heq) ▸ tr
  | Nat.succ l, coins, h, h', tr, heq => by
    rw [addLoop] at heq
    by_cases hcoin : coins.headD false
    · rw [if_pos hcoin] at heq
      obtain ⟨h1, h1eq, hrest⟩ := Option.bind_eq_some.mp heq
      exact AddTrack_addLoop h0 ref id vec l coins.tail h1 h'
        (AddTrack_addNodeToLevel h0 ref id vec h h1 (l : Int) tr h1eq) hrest
    · rw [if_neg hcoin] at heq
      exact (Option.some.inj heq) ▸ tr

theorem AddVector_eq (h : HNSW) (id : String) (vec : Gector.Vector)
    (coins : List Bool) (h' : HNSW) (heq : AddVector h id vec coins = some h') :
    ∃ h1 h2,
      addNodeToLevel { h with heap := h.heap ++ [⟨id, [], vec⟩] } h.heap.length
          (h.MaxLevels - 1) = some h1 ∧
      addLoop h.heap.length h1 (h.MaxLevels - 1).toNat coins = some h2 ∧
      h' = { h2 with nodes := mapSet h2.nodes id h.heap.length } := by
  rw [AddVector] at heq
  obtain ⟨h1, h1eq, heq2⟩ := Option.bind_eq_some.mp heq
  obtain ⟨h2, h2eq, heq3⟩ := Option.bind_eq_some.mp heq2
  exact ⟨h1, h2, h1eq, h2eq, (Option.some.inj heq3).symm⟩

theorem AddVector_track (h : HNSW) (id : String) (vec : Gector.Vector)
    (coins : List Bool) (h' : HNSW) (heq : AddVector h id vec coins = some h') :
    ∃ h1 h2,
      addNodeToLevel { h with heap := h.heap ++ [⟨id, [], vec⟩] } h.heap.length
          (h.MaxLevels - 1) = some h1 ∧
      addLoop h.heap.length h1 (h.MaxLevels - 1).toNat coins = some h2 ∧
      AddTrack { h with heap := h.heap ++ [⟨id, [], vec⟩] } h.heap.length id vec h2 ∧
      h' = { h2 with nodes := mapSet h2.nodes id h.heap.length } := by
  obtain ⟨h1, h2, h1eq, h2eq, hfin⟩ := AddVector_eq h id vec coins h' heq
  have htr0 : AddTrack { h with heap := h.heap ++ [⟨id, [], vec⟩] } h.heap.length id vec
      { h with heap := h.heap ++ [⟨id, [], vec⟩] } := by
    refine ⟨rfl, rfl, rfl, rfl, rfl, ⟨⟨id, [], vec⟩, ?_, rfl, rfl⟩,
      fun r hr => rfl, fun lvl' hl p hp => Or.inl ⟨lvl', hl, hp⟩⟩
    exact List.get?_concat_length h.heap ⟨id, [], vec⟩
  have htr1 := AddTrack_addNodeToLevel _ _ _ _ _ _ _ htr0 h1eq
  have htr2 := AddTrack_addLoop _ _ _ _ _ _ _ _ htr1 h2eq
  exact ⟨h1, h2, h1eq, h2eq, htr2, hfin⟩

theorem AddVector_flat (h : HNSW) (id : String) (vec : Gector.Vector)
    (coins : List Bool) (h' : HNSW) (heq : AddVector h id vec coins = some h') :
    ∃ n, mapGet h'.nodes id = some h.heap.length ∧
      h'.heap.get? h.heap.length = some n ∧ n.ID = id ∧ n.Vector = vec := by
  obtain ⟨h1, h2, h1eq, h2eq, htr, rfl⟩ := AddVector_track h id vec coins h' heq
  obtain ⟨n, hn, hnid, hnvec⟩ := htr.node
  exact ⟨n, mapGet_mapSet_self h2.nodes id h.heap.length, hn, hnid, hnvec⟩

/-! ### Output facts about findNeighbors -/

theorem findNeighbors_eq (h : HNSW) (node : HNSWNode) (level : Nat)
    (res : List String) (hres : findNeighbors h node level = some res) :
    ∃ lvl pairs, h.levels.get? level = some lvl ∧
      collectNeighborDists h node lvl = some pairs ∧
      truncateNeighbors h.MaxNeighbors
        (goSortFixed (pairs.map (fun p => p.2)) (pairs.map (fun p => p.1)))
        = some res := by
  rw [findNeighbors] at hres
  obtain ⟨lvl, hlvl, hres2⟩ := Option.bind_eq_some.mp hres
  obtain ⟨pairs, hp, hres3⟩ := Option.bind_eq_some.mp hres2
  exact ⟨lvl, pairs, hlvl, hp, hres3⟩

theorem collectNeighborDists_keys (h : HNSW) (node : HNSWNode) :
    ∀ (lvl : List (String × Nat)) (pairs : List (String × ℤ)),
      collectNeighborDists h node lvl = some pairs →
      ∀ q ∈ pairs, ¬ q.1 = node.ID
  | [], pairs, hc => by
    rw [collectNeighborDists] at hc
    rw [← Option.some.inj hc]
    intro q hq
    cases hq
  | (kid, r) :: rest, pairs, hc => by
    rw [collectNeighborDists] at hc
    by_cases hk : node.ID = kid
    · rw [if_pos hk] at hc
      exact collectNeighborDists_keys h node rest pairs hc
    · rw [if_neg hk] at hc
      obtain ⟨other, ho, hc2⟩ := Option.bind_eq_some.mp hc
      obtain ⟨dist, hd, hc3⟩ := Option.bind_eq_some.mp hc2
      obtain ⟨tail, ht, hc4⟩ := Option.bind_eq_some.mp hc3
      intro q hq
      rw [← Option.some.inj hc4] at hq
      rcases List.mem_cons.mp hq with h1 | h2
      · rw [h1]
        intro hkk
        exact hk hkk.symm
      · exact collectNeighborDists_keys h node rest tail ht q h2

theorem truncateNeighbors_spec (mx : Int) (ns res : List String) (hmx : 0 ≤ mx)
    (ht : truncateNeighbors mx ns = some res) :
    (res.length : Int) ≤ mx ∧ ∀ a ∈ res, a ∈ ns := by
  rw [truncateNeighbors] at ht
  by_cases hgt : (ns.length : Int) > mx
  · rw [if_pos hgt, if_neg (by omega)] at ht
    rw [← Option.some.inj ht]
    constructor
    · have hl := List.length_take mx.toNat ns
      omega
    · intro a ha
      exact List.mem_of_mem_take ha
  · rw [if_neg hgt] at ht
    rw [← Option.some.inj ht]
    exact ⟨by omega, fun a ha => ha⟩

theorem findNeighbors_ok (h : HNSW) (node : HNSWNode) (level : Nat)
    (res : List String) (hmx : 0 ≤ h.MaxNeighbors)
    (hres : findNeighbors h node level = some res) :
    (res.length : Int) ≤ h.MaxNeighbors ∧ node.ID ∉ res := by
  obtain ⟨lvl, pairs, hlvl, hp, ht⟩ := findNeighbors_eq h node level res hres
  obtain ⟨hlen, hsub⟩ := truncateNeighbors_spec _ _ _ hmx ht
  refine ⟨hlen, fun hmem => ?_⟩
  have h1 : node.ID ∈ goSortFixed (pairs.map (fun p => p.2)) (pairs.map (fun p => p.1)) :=
    hsub _ hmem
  have h2 : node.ID ∈ pairs.map (fun p => p.1) := (mem_goSortFixed _ _ _).mp h1
  obtain ⟨q, hq, hq1⟩ := List.mem_map.mp h2
  exact collectNeighborDists_keys h node lvl pairs hp q hq hq1

/-! ### Preservation of the neighbor-list invariant (claim C7) -/

theorem NInv_addNodeToLevel (h h' : HNSW) (ref : Nat) (level : Int)
    (hinv : NInv h) (heq : addNodeToLevel h ref level = some h') : NInv h' := by
  obtain ⟨hc, node, ns, hnode, hnb, rfl⟩ := addNodeToLevel_eq h ref level h' heq
  refine ⟨hinv.1, ?_⟩
  intro n hn
  have hn2 : n ∈ h.heap.set ref { node with Neighbors := ns } := hn
  rcases List.mem_or_eq_of_mem_set hn2 with hold | hnew
  · exact hinv.2 n hold
  · rw [hnew]
    have hok := findNeighbors_ok (levelInsert h node.ID ref level.toNat) node
      level.toNat ns hinv.1 hnb
    exact ⟨hok.1, hok.2⟩

theorem NInv_addLoop (ref : Nat) :
    ∀ (n : Nat) (coins : List Bool) (h h' : HNSW), NInv h →
      addLoop ref h n coins = some h' → NInv h'
  | 0, coins, h, h', hinv, heq => by
    rw [addLoop] at heq
    exact (Option.some.inj heq) ▸ hinv
  | Nat.succ l, coins, h, h', hinv, heq => by
    rw [addLoop] at heq
    by_cases hcoin : coins.headD false
    · rw [if_pos hcoin] at heq
      obtain ⟨h1, h1eq, hrest⟩ := Option.bind_eq_some.mp heq
      exact NInv_addLoop ref l coins.tail h1 h'
        (NInv_addNodeToLevel h h1 ref (l : Int) hinv h1eq) hrest
    · rw [if_neg hcoin] at heq
      exact (Option.some.inj heq) ▸ hinv

theorem NInv_AddVector (h : HNSW) (id : String) (vec : Gector.Vector)
    (coins : List Bool) (h' : HNSW) (hinv : NInv h)
    (heq : AddVector h id vec coins = some h') : NInv h' := by
  obtain ⟨h1, h2, h1eq, h2eq, rfl⟩ := AddVector_eq h id vec coins h' heq
  have hinv0 : NInv { h with heap := h.heap ++ [⟨id, [], vec⟩] } := by
    refine ⟨hinv.1, ?_⟩
    intro n hn
    rcases List.mem_append.mp hn with hold | hnew
    · exact hinv.2 n hold
    · rw [List.mem_singleton.mp hnew]
      refine ⟨?_, List.not_mem_nil id⟩
      have := hinv.1
      simp only [List.length_nil]
      omega
  have hinv1 := NInv_addNodeToLevel _ _ _ _ hinv0 h1eq
  have hinv2 := NInv_addLoop _ _ _ _ _ hinv1 h2eq
  exact ⟨hinv2.1, hinv2.2⟩

theorem NInv_DeleteVector (h : HNSW) (id : String) (h' : HNSW) (hinv : NInv h)
    (heq : DeleteVector h id = some h') : NInv h' := by
  rw [DeleteVector] at heq
  by_cases hc : h.MaxLevels ≤ (h.levels.length : Int)
  · rw [if_pos hc] at heq
    rw [← Option.some.inj heq]
    exact ⟨hinv.1, hinv.2⟩
  · rw [if_neg hc] at heq
    cases heq

theorem NInv_UpdateVector (h : HNSW) (id : String) (vec : Gector.Vector)
    (coins : List Bool) (h' : HNSW) (hinv : NInv h)
    (heq : UpdateVector h id vec coins = some (Except.ok h')) : NInv h' := by
  rw [UpdateVector] at heq
  by_cases hc : (mapGet h.nodes id).isSome
  · rw [if_pos hc] at heq
    obtain ⟨h1, h1eq, heq2⟩ := Option.bind_eq_some.mp heq
    obtain ⟨h2, h2eq, heq3⟩ := Option.bind_eq_some.mp heq2
    have hok : h2 = h' := by
      have := Option.some.inj heq3
      exact Except.ok.inj this
    rw [← hok]
    exact NInv_AddVector h1 id vec coins h2 (NInv_DeleteVector h id h1 hinv h1eq) h2eq
  · rw [if_neg hc] at heq
    cases Option.some.inj heq

theorem NInv_NewHNSW (mN mL : Int) (h : HNSW) (hN : 0 ≤ mN)
    (hnew : NewHNSW mN mL = some h) : NInv h := by
  rw [NewHNSW] at hnew
  by_cases hc : 0 ≤ mL
  · rw [if_pos hc] at hnew
    rw [← Option.some.inj hnew]
    exact ⟨hN, fun n hn => absurd hn (List.not_mem_nil n)⟩
  · rw [if_neg hc] at hnew
    cases hnew

/-! ### Well-formedness preservation and success of the operations -/

theorem getD_set_self (l : List (List (String × Nat))) (i : Nat)
    (x : List (String × Nat)) (h : i < l.length) : (l.set i x).getD i [] = x := by
  rw [List.getD_eq_getElem _ _ (by simpa using h)]
  exact List.getElem_set_eq (by simpa using h)

theorem getD_mem (l : List (List (String × Nat))) (i : Nat) (h : i < l.length) :
    l.getD i [] ∈ l := by
  rw [List.getD_eq_getElem _ _ h]
  exact List.getElem_mem h

theorem DeleteVector_eq (h h' : HNSW) (id : String)
    (heq : DeleteVector h id = some h') :
    h.MaxLevels ≤ (h.levels.length : Int) ∧
    h' = { h with
      levels := (h.levels.take h.MaxLevels.toNat).map (fun lvl => mapDelete lvl id)
        ++ h.levels.drop h.MaxLevels.toNat,
      nodes := mapDelete h.nodes id } := by
  rw [DeleteVector] at heq
  by_cases hc : h.MaxLevels ≤ (h.levels.length : Int)
  · rw [if_pos hc] at heq
    exact ⟨hc, (Option.some.inj heq).symm⟩
  · rw [if_neg hc] at heq
    cases heq

theorem WF_DeleteVector (h h' : HNSW) (id : String) (d : Nat) (hwf : WF h d)
    (heq : DeleteVector h id = some h') : WF h' d := by
  obtain ⟨hcond, rfl⟩ := DeleteVector_eq h h' id heq
  have hlen := hwf.levels_len
  refine ⟨?_, hwf.maxLevels_nonneg, hwf.maxNeighbors_nonneg, ?_, ?_, hwf.dims⟩
  · show ((h.levels.take h.MaxLevels.toNat).map (fun lvl => mapDelete lvl id)
        ++ h.levels.drop h.MaxLevels.toNat).length = h.MaxLevels.toNat
    rw [List.length_append, List.length_map, List.length_take, List.length_drop]
    omega
  · intro lvl' hl' p hp
    rcases List.mem_append.mp hl' with hleft | hright
    · obtain ⟨lvl, hlv, hfl⟩ := List.mem_map.mp hleft
      rw [← hfl] at hp
      exact hwf.level_refs lvl (List.mem_of_mem_take hlv) p (mem_mapDelete _ _ _ hp)
    · exact hwf.level_refs lvl' (List.mem_of_mem_drop hright) p hp
  · intro p hp
    exact hwf.flat_refs p (mem_mapDelete _ _ _ hp)

theorem WF_addNodeToLevel (h h' : HNSW) (ref : Nat) (level : Int) (d : Nat)
    (hwf : WF h d) (heq : addNodeToLevel h ref level = some h') : WF h' d := by
  obtain ⟨hc, node, ns, hnode, hnb, rfl⟩ := addNodeToLevel_eq h ref level h' heq
  obtain ⟨hreflt, -⟩ := List.get?_eq_some.mp hnode
  have hlv : level.toNat < h.levels.length := by omega
  have hnodemem : node ∈ h.heap := List.get?_mem hnode
  refine ⟨?_, hwf.maxLevels_nonneg, hwf.maxNeighbors_nonneg, ?_, ?_, ?_⟩
  · show (h.levels.set level.toNat
        (mapSet (h.levels.getD level.toNat []) node.ID ref)).length = h.MaxLevels.toNat
    rw [List.length_set]
    exact hwf.levels_len
  · intro lvl' hl' p hp
    show p.2 < (h.heap.set ref { node with Neighbors := ns }).length
    rw [List.length_set]
    have hl2 : lvl' ∈ h.levels.set level.toNat
        (mapSet (h.levels.getD level.toNat []) node.ID ref) := hl'
    rcases List.mem_or_eq_of_mem_set hl2 with hold | hnew
    · exact hwf.level_refs lvl' hold p hp
    · rw [hnew] at hp
      rcases mem_mapSet _ _ _ _ hp with hpr | hpin
      · rw [hpr]
        exact hreflt
      · exact hwf.level_refs _ (getD_mem _ _ hlv) p hpin
  · intro p hp
    show p.2 < (h.heap.set ref { node with Neighbors := ns }).length
    rw [List.length_set]
    exact hwf.flat_refs p hp
  · intro n hn
    have hn2 : n ∈ h.heap.set ref { node with Neighbors := ns } := hn
    rcases List.mem_or_eq_of_mem_set hn2 with hold | hnew
    · exact hwf.dims n hold
    · rw [hnew]
      exact hwf.dims node hnodemem

theorem WF_addLoop (ref : Nat) (d : Nat) :
    ∀ (n : Nat) (coins : List Bool) (h h' : HNSW), WF h d →
      addLoop ref h n coins = some h' → WF h' d
  | 0, coins, h, h', hwf, heq => by
    rw [addLoop] at heq
    exact (Option.some.inj heq) ▸ hwf
  | Nat.succ l, coins, h, h', hwf, heq => by
    rw [addLoop] at heq
    by_cases hcoin : coins.headD false
    · rw [if_pos hcoin] at heq
      obtain ⟨h1, h1eq, hrest⟩ := Option.bind_eq_some.mp heq
      exact WF_addLoop ref d l coins.tail h1 h'
        (WF_addNodeToLevel h h1 ref (l : Int) d hwf h1eq) hrest
    · rw [if_neg hcoin] at heq
      exact (Option.some.inj heq) ▸ hwf

theorem WF_heapExtend (h : HNSW) (id : String) (vec : Gector.Vector) (d : Nat)
    (hwf : WF h d) (hvec : vec.Values.length = d) :
    WF { h with heap := h.heap ++ [⟨id, [], vec⟩] } d := by
  refine ⟨hwf.levels_len, hwf.maxLevels_nonneg, hwf.maxNeighbors_nonneg, ?_, ?_, ?_⟩
  · intro lvl hl p hp
    show p.2 < (h.heap ++ [(⟨id, [], vec⟩ : HNSWNode)]).length
    rw [List.length_append]
    have := hwf.level_refs lvl hl p hp
    simp only [List.length_singleton]
    omega
  · intro p hp
    show p.2 < (h.heap ++ [(⟨id, [], vec⟩ : HNSWNode)]).length
    rw [List.length_append]
    have := hwf.flat_refs p hp
    simp only [List.length_singleton]
    omega
  · intro n hn
    rcases List.mem_append.mp hn with hold | hnew
    · exact hwf.dims n hold
    · rw [List.mem_singleton.mp hnew]
      exact hvec

theorem WF_AddVector (h : HNSW) (id : String) (vec : Gector.Vector)
    (coins : List Bool) (h' : HNSW) (d : Nat) (hwf : WF h d)
    (hvec : vec.Values.length = d)
    (heq : AddVector h id vec coins = some h') : WF h' d := by
  obtain ⟨h1, h2, h1eq, h2eq, htr, rfl⟩ := AddVector_track h id vec coins h' heq
  have hwf0 := WF_heapExtend h id vec d hwf hvec
  have hwf1 := WF_addNodeToLevel _ h1 _ _ d hwf0 h1eq
  have hwf2 := WF_addLoop _ d _ coins h1 h2 hwf1 h2eq
  refine ⟨hwf2.levels_len, hwf2.maxLevels_nonneg, hwf2.maxNeighbors_nonneg,
    hwf2.level_refs, ?_, hwf2.dims⟩
  intro p hp
  have hp2 : p ∈ mapSet h2.nodes id h.heap.length := hp
  rcases mem_mapSet _ _ _ _ hp2 with hpr | hpin
  · rw [hpr]
    show h.heap.length < h2.heap.length
    rw [htr.heap_len]
    show h.heap.length < (h.heap ++ [(⟨id, [], vec⟩ : HNSWNode)]).length
    rw [List.length_append]
    simp only [List.length_singleton]
    omega
  · exact hwf2.flat_refs p hpin

theorem addNodeToLevel_lengths (h h' : HNSW) (ref : Nat) (level : Int)
    (heq : addNodeToLevel h ref level = some h') :
    h'.heap.length = h.heap.length ∧ h'.levels.length = h.levels.length := by
  obtain ⟨hc, node, ns, hnode, hnb, rfl⟩ := addNodeToLevel_eq h ref level h' heq
  constructor
  · show (h.heap.set ref { node with Neighbors := ns }).length = h.heap.length
    exact List.length_set h.heap ref _
  · show (h.levels.set level.toNat
        (mapSet (h.levels.getD level.toNat []) node.ID ref)).length = h.levels.length
    exact List.length_set h.levels level.toNat _

theorem collectNeighborDists_isSome (h : HNSW) (node : HNSWNode) (d : Nat)
    (hnd : node.Vector.Values.length = d) :
    ∀ lvl : List (String × Nat),
      (∀ p ∈ lvl, ∃ other, h.heap.get? p.2 = some other ∧
        other.Vector.Values.length = d) →
      (collectNeighborDists h node lvl).isSome
  | [], _ => by
    rw [collectNeighborDists]
    rfl
  | (kid, r) :: rest, hrefs => by
    rw [collectNeighborDists]
    by_cases hk : node.ID = kid
    · rw [if_pos hk]
      exact collectNeighborDists_isSome h node d hnd rest
        (fun p hp => hrefs p (List.mem_cons_of_mem _ hp))
    · rw [if_neg hk]
      obtain ⟨other, ho, hod⟩ := hrefs (kid, r) (List.mem_cons_self _ _)
      rw [ho, someBind]
      have hdist : (euclideanDistance node.Vector other.Vector).isSome := by
        rw [euclideanDistance]
        exact distAux_isSome _ _ (by omega)
      obtain ⟨dist, hdeq⟩ := Option.isSome_iff_exists.mp hdist
      rw [hdeq, someBind]
      have htail := collectNeighborDists_isSome h node d hnd rest
        (fun p hp => hrefs p (List.mem_cons_of_mem _ hp))
      obtain ⟨tail, hteq⟩ := Option.isSome_iff_exists.mp htail
      rw [hteq, someBind]
      rfl

theorem truncateNeighbors_isSome (mx : Int) (ns : List String) (hmx : 0 ≤ mx) :
    (truncateNeighbors mx ns).isSome := by
  rw [truncateNeighbors]
  by_cases hgt : (ns.length : Int) > mx
  · rw [if_pos hgt, if_neg (by omega)]
    rfl
  · rw [if_neg hgt]
    rfl

theorem findNeighbors_isSome (h : HNSW) (node : HNSWNode) (level : Nat) (d : Nat)
    (hlev : level < h.levels.length) (hmx : 0 ≤ h.MaxNeighbors)
    (hnd : node.Vector.Values.length = d)
    (hrefs : ∀ p ∈ h.levels.getD level [], ∃ other,
      h.heap.get? p.2 = some other ∧ other.Vector.Values.length = d) :
    (findNeighbors h node level).isSome := by
  rw [findNeighbors]
  have hlvl : h.levels.get? level = some (h.levels.getD level []) := by
    rw [List.getD_eq_getElem _ _ hlev]
    exact List.get?_eq_get hlev
  rw [hlvl, someBind]
  obtain ⟨pairs, hpeq⟩ := Option.isSome_iff_exists.mp
    (collectNeighborDists_isSome h node d hnd (h.levels.getD level []) hrefs)
  rw [hpeq, someBind]
  exact truncateNeighbors_isSome _ _ hmx

theorem addNodeToLevel_isSome (h : HNSW) (ref : Nat) (level : Int) (d : Nat)
    (hwf : WF h d) (href : ref < h.heap.length)
    (hl0 : 0 ≤ level) (hllen : level < (h.levels.length : Int)) :
    (addNodeToLevel h ref level).isSome := by
  have hlvt : level.toNat < h.levels.length := by omega
  have hnode : h.heap.get? ref = some (h.heap.get ⟨ref, href⟩) := List.get?_eq_get href
  have hinner : ∀ p ∈ (levelInsert h (h.heap.get ⟨ref, href⟩).ID ref level.toNat).levels.getD
      level.toNat [], ∃ other,
      (levelInsert h (h.heap.get ⟨ref, href⟩).ID ref level.toNat).heap.get? p.2 = some other ∧
      other.Vector.Values.length = d := by
    intro p hp
    have hset : (levelInsert h (h.heap.get ⟨ref, href⟩).ID ref level.toNat).levels.getD
        level.toNat []
        = mapSet (h.levels.getD level.toNat []) (h.heap.get ⟨ref, href⟩).ID ref :=
      getD_set_self h.levels level.toNat _ hlvt
    rw [hset] at hp
    rcases mem_mapSet _ _ _ _ hp with hpr | hpin
    · refine ⟨h.heap.get ⟨ref, href⟩, ?_, hwf.dims _ (List.get_mem h.heap ref href)⟩
      rw [hpr]
      exact hnode
    · have hlt := hwf.level_refs _ (getD_mem _ _ hlvt) p hpin
      exact ⟨h.heap.get ⟨p.2, hlt⟩, List.get?_eq_get hlt,
        hwf.dims _ (List.get_mem h.heap p.2 hlt)⟩
  have hfx := findNeighbors_isSome
    (levelInsert h (h.heap.get ⟨ref, href⟩).ID ref level.toNat)
    (h.heap.get ⟨ref, href⟩) level.toNat d
    (by show level.toNat < (h.levels.set _ _).length
        rw [List.length_set]
        exact hlvt)
    hwf.maxNeighbors_nonneg
    (hwf.dims _ (List.get_mem h.heap ref href))
    hinner
  obtain ⟨ns, hns⟩ := Option.isSome_iff_exists.mp hfx
  rw [addNodeToLevel, if_pos ⟨hl0, hllen⟩, hnode, someBind, hns, someBind]
  rfl

theorem addLoop_isSome (ref : Nat) (d : Nat) :
    ∀ (n : Nat) (coins : List Bool) (h : HNSW), WF h d → ref < h.heap.length →
      n ≤ h.levels.length → (addLoop ref h n coins).isSome
  | 0, coins, h, _, _, _ => by
    rw [addLoop]
    rfl
  | Nat.succ l, coins, h, hwf, href, hn => by
    rw [addLoop]
    by_cases hcoin : coins.headD false
    · rw [if_pos hcoin]
      have hstep := addNodeToLevel_isSome h ref (l : Int) d hwf href
        (by omega) (by exact_mod_cast Nat.lt_of_succ_le hn)
      obtain ⟨h1, h1eq⟩ := Option.isSome_iff_exists.mp hstep
      rw [h1eq, Option.some_bind]
      have hlens := addNodeToLevel_lengths h h1 ref (l : Int) h1eq
      exact addLoop_isSome ref d l coins.tail h1
        (WF_addNodeToLevel h h1 ref (l : Int) d hwf h1eq)
        (by omega) (by omega)
    · rw [if_neg hcoin]
      rfl

theorem NearestNeighbors_def (h : HNSW) (query : Gector.Vector) (k : Int) :
    NearestNeighbors h query k =
      (levelsLoop h query k h.MaxLevels.toNat []).bind (fun best =>
        if (best.length : Int) > k then
          if k < 0 then none else some (best.take k.toNat)
        else some best) := rfl

theorem AddVector_def (h : HNSW) (id : String) (vec : Gector.Vector)
    (coins : List Bool) :
    AddVector h id vec coins =
      (addNodeToLevel { h with heap := h.heap ++ [⟨id, [], vec⟩] } h.heap.length
        (h.MaxLevels - 1)).bind (fun h1 =>
      (addLoop h.heap.length h1 (h.MaxLevels - 1).toNat coins).bind (fun h2 =>
      some { h2 with nodes := mapSet h2.nodes id h.heap.length })) := rfl

theorem UpdateVector_def (h : HNSW) (id : String) (nv : Gector.Vector)
    (coins : List Bool) :
    UpdateVector h id nv coins =
      if (mapGet h.nodes id).isSome then
        (DeleteVector h id).bind (fun h1 =>
          (AddVector h1 id nv coins).bind (fun h2 => some (Except.ok h2)))
      else some (Except.error ("vector with id " ++ id ++ " not found")) := rfl

theorem AddVector_isSome (h : HNSW) (id : String) (vec : Gector.Vector)
    (coins : List Bool) (d : Nat) (hwf : WF h d) (hml : 1 ≤ h.MaxLevels)
    (hvec : vec.Values.length = d) : (AddVector h id vec coins).isSome := by
  have hwf0 := WF_heapExtend h id vec d hwf hvec
  have hlen0 : ({ h with heap := h.heap ++ [(⟨id, [], vec⟩ : HNSWNode)] } : HNSW).heap.length
      = h.heap.length + 1 := by
    show (h.heap ++ [(⟨id, [], vec⟩ : HNSWNode)]).length = h.heap.length + 1
    rw [List.length_append]
    rfl
  have hll := hwf.levels_len
  have hstep := addNodeToLevel_isSome _ h.heap.length (h.MaxLevels - 1) d hwf0
    (by omega) (by omega)
    (by show h.MaxLevels - 1 < (h.levels.length : Int)
        omega)
  obtain ⟨h1, h1eq⟩ := Option.isSome_iff_exists.mp hstep
  have hlens := addNodeToLevel_lengths _ h1 _ _ h1eq
  have hll0 : ({ h with heap := h.heap ++ [(⟨id, [], vec⟩ : HNSWNode)] } : HNSW).levels.length
      = h.levels.length := rfl
  have hloop := addLoop_isSome h.heap.length d (h.MaxLevels - 1).toNat coins h1
    (WF_addNodeToLevel _ h1 _ _ d hwf0 h1eq)
    (by omega)
    (by have h2 := hlens.2
        show (h.MaxLevels - 1).toNat ≤ h1.levels.length
        omega)
  obtain ⟨h2, h2eq⟩ := Option.isSome_iff_exists.mp hloop
  rw [AddVector_def, h1eq, Option.some_bind, h2eq, Option.some_bind]
  rfl

/-! ### Stability of findNeighbors under writes it cannot observe -/

theorem getD_set_ne (l : List (List (String × Nat))) (i j : Nat)
    (x : List (String × Nat)) (hij : i ≠ j) :
    (l.set i x).getD j [] = l.getD j [] := by
  have h1 : (l.set i x).getD j [] = ((l.set i x).get? j).getD [] := rfl
  have h2 : l.getD j [] = (l.get? j).getD [] := rfl
  rw [h1, h2, List.get?_set_ne x l hij]

theorem getD_of_get?_eq (l : List (List (String × Nat))) (n : Nat)
    (a : List (String × Nat)) (h : l.get? n = some a) : l.getD n [] = a := by
  have : l.getD n [] = (l.get? n).getD [] := rfl
  rw [this, h]
  rfl

theorem collectNeighborDists_hset (h : HNSW) (ref : Nat) (x : HNSWNode)
    (node node' : HNSWNode) (hid : node'.ID = node.ID)
    (hvec : node'.Vector = node.Vector) :
    ∀ lvl : List (String × Nat), (∀ p ∈ lvl, p.1 = node.ID ∨ p.2 ≠ ref) →
      collectNeighborDists { h with heap := h.heap.set ref x } node' lvl
        = collectNeighborDists h node lvl
  | [], _ => by rw [collectNeighborDists, collectNeighborDists]
  | (kid, r) :: rest, hcond => by
    rw [collectNeighborDists, collectNeighborDists]
    have hrest := collectNeighborDists_hset h ref x node node' hid hvec rest
      (fun p hp => hcond p (List.mem_cons_of_mem _ hp))
    by_cases hk : node.ID = kid
    · rw [if_pos (by rw [hid]; exact hk), if_pos hk]
      exact hrest
    · rw [if_neg (by rw [hid]; exact hk), if_neg hk]
      have hr : r ≠ ref := by
        rcases hcond (kid, r) (List.mem_cons_self _ _) with h1 | h2
        · exact absurd h1.symm hk
        · exact h2
      have hget : ({ h with heap := h.heap.set ref x } : HNSW).heap.get? r
          = h.heap.get? r := List.get?_set_ne x h.heap (Ne.symm hr)
      rw [hget]
      simp only [hvec, hrest]

theorem collectNeighborDists_nodes (h : HNSW) (X : List (String × Nat))
    (node : HNSWNode) :
    ∀ lvl : List (String × Nat),
      collectNeighborDists { h with nodes := X } node lvl
        = collectNeighborDists h node lvl
  | [] => by rw [collectNeighborDists, collectNeighborDists]
  | (kid, r) :: rest => by
    rw [collectNeighborDists, collectNeighborDists]
    have hrest := collectNeighborDists_nodes h X node rest
    by_cases hk : node.ID = kid
    · rw [if_pos hk, if_pos hk]
      exact hrest
    · rw [if_neg hk, if_neg hk]
      have hget : ({ h with nodes := X } : HNSW).heap = h.heap := rfl
      rw [hget]
      simp only [hrest]

theorem findNeighbors_hset (h : HNSW) (ref : Nat) (x : HNSWNode)
    (node node' : HNSWNode) (level : Nat) (hid : node'.ID = node.ID)
    (hvec : node'.Vector = node.Vector)
    (hcond : ∀ p ∈ h.levels.getD level [], p.1 = node.ID ∨ p.2 ≠ ref) :
    findNeighbors { h with heap := h.heap.set ref x } node' level
      = findNeighbors h node level := by
  rw [findNeighbors, findNeighbors]
  have hlv : ({ h with heap := h.heap.set ref x } : HNSW).levels = h.levels := rfl
  have hmx : ({ h with heap := h.heap.set ref x } : HNSW).MaxNeighbors
      = h.MaxNeighbors := rfl
  rw [hlv, hmx]
  cases hgl : h.levels.get? level with
  | none => rfl
  | some lvl =>
    rw [someBind, someBind]
    have hlde : h.levels.getD level [] = lvl := getD_of_get?_eq _ _ _ hgl
    rw [hlde] at hcond
    rw [collectNeighborDists_hset h ref x node node' hid hvec lvl hcond]

theorem findNeighbors_nodes (h : HNSW) (X : List (String × Nat))
    (node : HNSWNode) (level : Nat) :
    findNeighbors { h with nodes := X } node level = findNeighbors h node level := by
  rw [findNeighbors, findNeighbors]
  have hlv : ({ h with nodes := X } : HNSW).levels = h.levels := rfl
  have hmx : ({ h with nodes := X } : HNSW).MaxNeighbors = h.MaxNeighbors := rfl
  rw [hlv, hmx]
  cases hgl : h.levels.get? level with
  | none => rfl
  | some lvl =>
    rw [someBind, someBind, collectNeighborDists_nodes h X node lvl]

/-! ### Placement of one insertion (claim C2) -/

theorem addNodeToLevel_post (h h' : HNSW) (ref : Nat) (L : Nat) (id : String)
    (heq : addNodeToLevel h ref (L : Int) = some h')
    (hid : ∀ n, h.heap.get? ref = some n → n.ID = id)
    (hsafe : ∀ p ∈ h.levels.getD L [], p.1 = id ∨ p.2 ≠ ref) :
    (∀ n, h'.heap.get? ref = some n → findNeighbors h' n L = some n.Neighbors) ∧
    h'.levels = h.levels.set L (mapSet (h.levels.getD L []) id ref) ∧
    h'.heap.length = h.heap.length := by
  obtain ⟨hc, node, ns, hnode, hnb, rfl⟩ := addNodeToLevel_eq h ref (L : Int) h' heq
  have htn : ((L : Int)).toNat = L := rfl
  rw [htn] at hnb
  have hnid : node.ID = id := hid node hnode
  obtain ⟨hreflt, -⟩ := List.get?_eq_some.mp hnode
  have hLlt : L < h.levels.length := by
    have := hc.2
    omega
  refine ⟨?_, ?_, ?_⟩
  · intro n hget
    have hget2 : (h.heap.set ref { node with Neighbors := ns }).get? ref = some n := hget
    rw [List.get?_set_eq_of_lt _ hreflt] at hget2
    have hne : n = { node with Neighbors := ns } := (Option.some.inj hget2).symm
    have hmid : ∀ p ∈ (levelInsert h node.ID ref L).levels.getD L [],
        p.1 = node.ID ∨ p.2 ≠ ref := by
      intro p hp
      have hset : (levelInsert h node.ID ref L).levels.getD L []
          = mapSet (h.levels.getD L []) node.ID ref :=
        getD_set_self h.levels L _ hLlt
      rw [hset] at hp
      rcases mem_mapSet _ _ _ _ hp with hpr | hpin
      · exact Or.inl (by rw [hpr])
      · rcases hsafe p hpin with h1 | h2
        · exact Or.inl (by rw [h1, hnid])
        · exact Or.inr h2
    rw [hne]
    show findNeighbors
        { levelInsert h node.ID ref L with
          heap := (levelInsert h node.ID ref L).heap.set ref { node with Neighbors := ns } }
        { node with Neighbors := ns } L = some ns
    rw [findNeighbors_hset (levelInsert h node.ID ref L) ref
      { node with Neighbors := ns } node { node with Neighbors := ns } L rfl rfl hmid]
    exact hnb
  · show (levelInsert h node.ID ref ((L : Int)).toNat).levels
      = h.levels.set L (mapSet (h.levels.getD L []) id ref)
    rw [htn, hnid]
    rfl
  · show (h.heap.set ref { node with Neighbors := ns }).length = h.heap.length
    exact List.length_set h.heap ref _

theorem AddPlace_step (h0 : HNSW) (ref : Nat) (id : String) (vec : Gector.Vector)
    (h h' : HNSW) (L : Nat)
    (htr : AddTrack h0 ref id vec h)
    (hrefs0 : ∀ lvl ∈ h0.levels, ∀ p ∈ lvl, p.2 < ref)
    (hpl : AddPlace ref id h (L + 1))
    (heq : addNodeToLevel h ref (L : Int) = some h') : AddPlace ref id h' L := by
  have hid : ∀ n, h.heap.get? ref = some n → n.ID = id := by
    intro n hn
    obtain ⟨m, hm, hmid, -⟩ := htr.node
    rw [hm] at hn
    rw [← Option.some.inj hn]
    exact hmid
  have hLlt : L < h.levels.length := by
    have := (addNodeToLevel_eq h ref (L : Int) h' heq).1.2
    omega
  have hsafe : ∀ p ∈ h.levels.getD L [], p.1 = id ∨ p.2 ≠ ref := by
    intro p hp
    rcases htr.level_keys _ (getD_mem _ _ hLlt) p hp with ⟨lvl0, hl0, hp0⟩ | hpr
    · have := hrefs0 lvl0 hl0 p hp0
      omega
    · exact Or.inl (by rw [hpr])
  obtain ⟨hnb, hlevels, -⟩ := addNodeToLevel_post h h' ref L id heq hid hsafe
  have hlenh' : h'.levels.length = h.levels.length := by
    rw [hlevels]
    exact List.length_set h.levels L _
  refine ⟨?_, hnb⟩
  intro ℓ hℓ
  rw [hlevels]
  by_cases hLL : ℓ = L
  · rw [hLL, getD_set_self h.levels L _ hLlt, mapGet_mapSet_self, if_pos (le_refl L)]
  · rw [getD_set_ne h.levels L ℓ _ (fun hh => hLL hh.symm)]
    have hpl2 := hpl.place ℓ (by omega)
    rw [hpl2]
    by_cases hle : L ≤ ℓ
    · rw [if_pos (by omega), if_pos hle]
    · rw [if_neg (by omega), if_neg hle]

theorem AddPlace_loop (h0 : HNSW) (ref : Nat) (id : String) (vec : Gector.Vector)
    (hrefs0 : ∀ lvl ∈ h0.levels, ∀ p ∈ lvl, p.2 < ref) :
    ∀ (n : Nat) (coins : List Bool) (h h' : HNSW),
      AddTrack h0 ref id vec h → AddPlace ref id h n →
      addLoop ref h n coins = some h' →
      ∃ L, L ≤ n ∧ AddTrack h0 ref id vec h' ∧ AddPlace ref id h' L
  | 0, coins, h, h', htr, hpl, heq => by
    rw [addLoop] at heq
    exact ⟨0, le_refl 0, (Option.some.inj heq) ▸ htr, (Option.some.inj heq) ▸ hpl⟩
  | Nat.succ l, coins, h, h', htr, hpl, heq => by
    rw [addLoop] at heq
    by_cases hcoin : coins.headD false
    · rw [if_pos hcoin] at heq
      obtain ⟨h1, h1eq, hrest⟩ := Option.bind_eq_some.mp heq
      obtain ⟨L, hLle, htr2, hpl2⟩ := AddPlace_loop h0 ref id vec hrefs0 l coins.tail h1 h'
        (AddTrack_addNodeToLevel h0 ref id vec h h1 (l : Int) htr h1eq)
        (AddPlace_step h0 ref id vec h h1 l htr hrefs0 hpl h1eq) hrest
      exact ⟨L, by omega, htr2, hpl2⟩
    · rw [if_neg hcoin] at heq
      exact ⟨Nat.succ l, le_refl _, (Option.some.inj heq) ▸ htr,
        (Option.some.inj heq) ▸ hpl⟩

/-! ### Preservation of the level-keys-in-flat-table invariant (claim C9) -/

theorem mapGet_mem (m : List (String × Nat)) (k : String) (v : Nat)
    (hm : mapGet m k = some v) : (k, v) ∈ m := by
  rw [mapGet] at hm
  obtain ⟨q, hq, hqv⟩ := Option.map_eq_some'.mp hm
  have hqm := List.mem_of_find?_eq_some hq
  have hqk : q.1 = k := by simpa using List.find?_some hq
  have hqe : q = (k, v) := by
    cases q
    simp_all
  rw [← hqe]
  exact hqm

theorem INV9_NewHNSW (mN mL : Int) (h : HNSW) (hnew : NewHNSW mN mL = some h) :
    INV9 h := by
  rw [NewHNSW] at hnew
  by_cases hc : 0 ≤ mL
  · rw [if_pos hc] at hnew
    rw [← Option.some.inj hnew]
    refine ⟨by simp, by simp, ?_⟩
    intro lvl hl p hp
    rw [List.eq_of_mem_replicate hl] at hp
    cases hp
  · rw [if_neg hc] at hnew
    cases hnew

theorem INV9_AddVector (h : HNSW) (id : String) (vec : Gector.Vector)
    (coins : List Bool) (h' : HNSW) (hinv : INV9 h)
    (heq : AddVector h id vec coins = some h') : INV9 h' := by
  obtain ⟨h1, h2, h1eq, h2eq, htr, rfl⟩ := AddVector_track h id vec coins h' heq
  obtain ⟨hlen, hrefs, hkeys⟩ := hinv
  have hheap2 : h2.heap.length = h.heap.length + 1 := by
    rw [htr.heap_len]
    show (h.heap ++ [(⟨id, [], vec⟩ : HNSWNode)]).length = h.heap.length + 1
    rw [List.length_append]
    rfl
  refine ⟨?_, ?_, ?_⟩
  · show h2.levels.length = h2.MaxLevels.toNat
    rw [htr.levels_len, htr.maxL]
    exact hlen
  · intro p hp
    have hp2 : p ∈ mapSet h2.nodes id h.heap.length := hp
    show p.2 < h2.heap.length
    rcases mem_mapSet _ _ _ _ hp2 with hpr | hpin
    · rw [hpr]
      omega
    · rw [htr.nodes_eq] at hpin
      have := hrefs p hpin
      omega
  · intro lvl hl p hp
    show (mapGet (mapSet h2.nodes id h.heap.length) p.1).isSome
    by_cases hpid : p.1 = id
    · rw [hpid, mapGet_mapSet_self]
      rfl
    · rw [mapGet_mapSet_ne _ _ _ _ hpid, htr.nodes_eq]
      rcases htr.level_keys lvl hl p hp with ⟨lvl0, hl0, hp0⟩ | hpr
      · exact hkeys lvl0 hl0 p hp0
      · rw [hpr] at hpid
        exact absurd rfl hpid

theorem INV9_DeleteVector (h : HNSW) (id : String) (h' : HNSW) (hinv : INV9 h)
    (heq : DeleteVector h id = some h') : INV9 h' := by
  obtain ⟨hcond, rfl⟩ := DeleteVector_eq h h' id heq
  obtain ⟨hlen, hrefs, hkeys⟩ := hinv
  have htake : h.levels.take h.MaxLevels.toNat = h.levels := by
    rw [← hlen]
    exact List.take_length h.levels
  have hdrop : h.levels.drop h.MaxLevels.toNat = [] := by
    rw [← hlen]
    exact List.drop_length h.levels
  refine ⟨?_, ?_, ?_⟩
  · show ((h.levels.take h.MaxLevels.toNat).map (fun lvl => mapDelete lvl id)
        ++ h.levels.drop h.MaxLevels.toNat).length = h.MaxLevels.toNat
    rw [htake, hdrop, List.append_nil, List.length_map]
    exact hlen
  · intro p hp
    exact hrefs p (mem_mapDelete _ _ _ hp)
  · intro lvl' hl' p hp
    rw [htake, hdrop, List.append_nil] at hl'
    obtain ⟨lvl, hlv, hfl⟩ := List.mem_map.mp hl'
    rw [← hfl] at hp
    have hpne : ¬ p.1 = id := by
      have := List.mem_filter.mp hp
      simpa using this.2
    show (mapGet (mapDelete h.nodes id) p.1).isSome
    rw [mapGet_mapDelete, if_neg hpne]
    exact hkeys lvl hlv p (mem_mapDelete _ _ _ hp)

theorem INV9_UpdateVector (h : HNSW) (id : String) (vec : Gector.Vector)
    (coins : List Bool) (h' : HNSW) (hinv : INV9 h)
    (heq : UpdateVector h id vec coins = some (Except.ok h')) : INV9 h' := by
  rw [UpdateVector_def] at heq
  by_cases hc : (mapGet h.nodes id).isSome
  · rw [if_pos hc] at heq
    obtain ⟨h1, h1eq, heq2⟩ := Option.bind_eq_some.mp heq
    obtain ⟨h2, h2eq, heq3⟩ := Option.bind_eq_some.mp heq2
    have hok : h2 = h' := Except.ok.inj (Option.some.inj heq3)
    rw [← hok]
    exact INV9_AddVector h1 id vec coins h2 (INV9_DeleteVector h id h1 hinv h1eq) h2eq
  · rw [if_neg hc] at heq
    cases Option.some.inj heq

theorem pickLoop_isSome (h : HNSW) (hinv : INV9 h) :
    ∀ (ids : List String) (acc : List Gector.Vector),
      (∀ id ∈ ids, ∃ lvl ∈ h.levels, ∃ p ∈ lvl, p.1 = id) →
      (pickLoop h ids acc).isSome
  | [], acc, _ => by
    rw [pickLoop]
    rfl
  | id :: rest, acc, hids => by
    rw [pickLoop]
    obtain ⟨lvl, hlvl, p, hp, hp1⟩ := hids id (List.mem_cons_self id rest)
    have hsome : (mapGet h.nodes id).isSome := hp1 ▸ hinv.2.2 lvl hlvl p hp
    obtain ⟨ref, href⟩ := Option.isSome_iff_exists.mp hsome
    rw [href, someBind]
    have hreflt : ref < h.heap.length := hinv.2.1 (id, ref) (mapGet_mem _ _ _ href)
    rw [List.get?_eq_get hreflt, someBind]
    exact pickLoop_isSome h hinv rest _
      (fun i hi => hids i (List.mem_cons_of_mem id hi))

/-! ### Lemmas about the query loops -/

theorem levelStep_of_nonpos (h : HNSW) (q : Gector.Vector) (k : Int) (hk : k ≤ 0)
    (acc : List Gector.Vector) (lvl : List (String × Nat)) (res : List Gector.Vector)
    (hstep : levelStep h q k acc lvl = some res) : res = acc := by
  unfold levelStep at hstep
  obtain ⟨pairs, hp, hpick⟩ := Option.bind_eq_some.mp hstep
  have hk0 : k.toNat = 0 := by omega
  rw [hk0] at hpick
  simp only [Nat.zero_min, List.take_zero, pickLoop] at hpick
  exact (Option.some.inj hpick).symm

theorem levelsLoop_of_nonpos (h : HNSW) (q : Gector.Vector) (k : Int) (hk : k ≤ 0) :
    ∀ (n : Nat) (acc res : List Gector.Vector),
      levelsLoop h q k n acc = some res → res = acc
  | 0, acc, res, hl => by
    rw [levelsLoop] at hl
    exact (Option.some.inj hl).symm
  | Nat.succ l, acc, res, hl => by
    rw [levelsLoop] at hl
    by_cases hb : l < h.levels.length
    · rw [if_pos hb] at hl
      obtain ⟨acc', hstep, hrest⟩ := Option.bind_eq_some.mp hl
      have hacc := levelStep_of_nonpos h q k hk acc _ acc' hstep
      rw [hacc] at hrest
      exact levelsLoop_of_nonpos h q k hk l acc res hrest
    · rw [if_neg hb] at hl
      cases hl

theorem levelStep_of_empty (h : HNSW) (q : Gector.Vector) (k : Int)
    (acc : List Gector.Vector) : levelStep h q k acc [] = some acc := by
  simp [levelStep, collectQueryDists, goSortFixed, pickLoop]

theorem levelsLoop_of_empty_levels (h : HNSW) (q : Gector.Vector) (k : Int) :
    ∀ (n : Nat) (acc : List Gector.Vector), n ≤ h.levels.length →
      (∀ ℓ : Nat, ℓ < n → h.levels.getD ℓ [] = []) →
      levelsLoop h q k n acc = some acc
  | 0, acc, _, _ => by rw [levelsLoop]
  | Nat.succ l, acc, hn, hempty => by
    rw [levelsLoop, if_pos (by omega), hempty l (by omega), levelStep_of_empty]
    exact levelsLoop_of_empty_levels h q k l acc (by omega) (fun ℓ hℓ => hempty ℓ (by omega))

theorem getD_replicate_empty (n ℓ : Nat) :
    (List.replicate n ([] : List (String × Nat))).getD ℓ [] = [] := by
  induction n generalizing ℓ with
  | zero => simp
  | succ m ih => cases ℓ <;> simp [List.replicate, ih]

theorem map_self_of_fixed : ∀ (l : List α) (f : α → α), (∀ a ∈ l, f a = a) → l.map f = l
  | [], _, _ => rfl
  | a :: t, f, hf => by
    rw [List.map_cons, hf a (List.mem_cons_self a t),
      map_self_of_fixed t f (fun b hb => hf b (List.mem_cons_of_mem a hb))]

/-! ### Claim theorems -/

/-- C1: the claim states that NearestNeighbors sorts each level's node IDs
ascending by Euclidean distance before taking up to k, so that, for three
vectors at distances 1, 5 and 10 from the query along one axis, a k = 2
query returns the two closest in ascending order for every iteration order
of the level tables. The code does not: the sort.SliceStable comparator in
src/engine.go reads the distances slice, which the sort never reorders, so
the permutation applied to the candidates is not sort-by-distance. This
theorem evaluates the engine on the failing input: vectors b = [10],
c = [1], a = [5] (distances 10, 1, 5 from the query [0]) inserted in an
order whose table iteration order is b, c, a; the query returns the
vectors at distances 1 and 10 — not the two closest (1 and 5) — in
contradiction with the repository's own comment ("Sort neighbors by
distance in ascending order") and its test TestNearestNeighbors. -/
theorem C1_query_not_sorted_eval :
    ((do
        let h ← NewHNSW 5 1
        let h ← AddVector h "b" ⟨"b", [10]⟩ []
        let h ← AddVector h "c" ⟨"c", [1]⟩ []
        let h ← AddVector h "a" ⟨"a", [5]⟩ []
        NearestNeighbors h ⟨"q", [0]⟩ 2)
      = some [⟨"c", [1]⟩, ⟨"b", [10]⟩]) ∧
    ([(⟨"c", [1]⟩ : Gector.Vector), ⟨"b", [10]⟩] ≠ [⟨"c", [1]⟩, ⟨"a", [5]⟩]) := by
  exact ⟨by decide, by decide⟩

/-- C2 as frozen says each (node ID, level) pair has its own Node object
and that the flat table's Neighbors always reflect the bottom-level
connections. The code shares ONE node object across all levels of an
insertion and overwrites its Neighbors at each visited level, so the
observed list is the one computed at the shallowest visited level. In this
trace (maxNeighbors = 1, maxLevels = 2; x = [0] stays at the bottom;
z = [1] propagates to level 0) both level tables and the flat table map
"z" to the same arena cell 1, whose Neighbors is [] (the level-0
computation), while recomputing the bottom-level (level 1) neighbor
selection for that node yields ["x"] ≠ []. -/
theorem C2_counterexample :
    ((do
        let h ← NewHNSW 1 2
        let h ← AddVector h "x" ⟨"x", [0]⟩ []
        AddVector h "z" ⟨"z", [1]⟩ [true])
      = some ⟨[⟨"x", [], ⟨"x", [0]⟩⟩, ⟨"z", [], ⟨"z", [1]⟩⟩],
          [("x", 0), ("z", 1)], [[("z", 1)], [("x", 0), ("z", 1)]], 1, 2⟩) ∧
    (mapGet (([[("z", 1)], [("x", 0), ("z", 1)]] : List (List (String × Nat))).getD 0 []) "z"
        = some 1) ∧
    (mapGet (([[("z", 1)], [("x", 0), ("z", 1)]] : List (List (String × Nat))).getD 1 []) "z"
        = some 1) ∧
    (mapGet ([("x", 0), ("z", 1)] : List (String × Nat)) "z" = some 1) ∧
    (([⟨"x", [], ⟨"x", [0]⟩⟩, ⟨"z", [], ⟨"z", [1]⟩⟩] : List HNSWNode).get? 1
        = some ⟨"z", [], ⟨"z", [1]⟩⟩) ∧
    findNeighbors ⟨[⟨"x", [], ⟨"x", [0]⟩⟩, ⟨"z", [], ⟨"z", [1]⟩⟩],
        [("x", 0), ("z", 1)], [[("z", 1)], [("x", 0), ("z", 1)]], 1, 2⟩
        ⟨"z", [], ⟨"z", [1]⟩⟩ 1 = some ["x"] ∧
    (["x"] ≠ (⟨"z", [], ⟨"z", [1]⟩⟩ : HNSWNode).Neighbors) := by
  refine ⟨by decide, by decide, by decide, by decide, by decide, by decide, by decide⟩

/-- C2 (amended): one insertion of a fresh id allocates a single Node
object, shared by every level table the insertion touched and by the flat
table; the id is present at exactly the levels from some L (the shallowest
level reached) down to the bottom, all mapping to that same object; and
the object's Neighbors field holds the neighbor list as computed at that
shallowest level L — not the bottom level (recomputing findNeighbors at L
on the final state reproduces the stored list). -/
theorem C2_shared_node_amended (h : HNSW) (d : Nat) (id : String)
    (vec : Gector.Vector) (coins : List Bool) (h' : HNSW)
    (hwf : WF h d)
    (hfresh : ∀ lvl ∈ h.levels, mapGet lvl id = none)
    (hadd : AddVector h id vec coins = some h') :
    ∃ L n, L < h'.levels.length ∧
      mapGet h'.nodes id = some h.heap.length ∧
      h'.heap.get? h.heap.length = some n ∧ n.ID = id ∧ n.Vector = vec ∧
      (∀ ℓ : Nat, ℓ < h'.levels.length →
        mapGet (h'.levels.getD ℓ []) id
          = if L ≤ ℓ then some h.heap.length else none) ∧
      findNeighbors h' n L = some n.Neighbors := by
  obtain ⟨h1, h2, h1eq, h2eq, -, rfl⟩ := AddVector_track h id vec coins h' hadd
  have hrfl : ({ h with heap := h.heap ++ [⟨id, [], vec⟩] } : HNSW).levels
      = h.levels := rfl
  have htr0 : AddTrack { h with heap := h.heap ++ [⟨id, [], vec⟩] } h.heap.length id vec
      { h with heap := h.heap ++ [⟨id, [], vec⟩] } := by
    refine ⟨rfl, rfl, rfl, rfl, rfl, ⟨⟨id, [], vec⟩, ?_, rfl, rfl⟩,
      fun r hr => rfl, fun lvl' hl p hp => Or.inl ⟨lvl', hl, hp⟩⟩
    exact List.get?_concat_length h.heap ⟨id, [], vec⟩
  have hrefs0 : ∀ lvl ∈ ({ h with heap := h.heap ++ [⟨id, [], vec⟩] } : HNSW).levels,
      ∀ p ∈ lvl, p.2 < h.heap.length := hwf.level_refs
  have hc1 := (addNodeToLevel_eq _ _ _ _ h1eq).1
  have hcast : ((h.MaxLevels - 1).toNat : Int) = h.MaxLevels - 1 :=
    Int.toNat_of_nonneg hc1.1
  rw [← hcast] at h1eq
  have htr1 := AddTrack_addNodeToLevel _ _ _ _ _ _ _ htr0 h1eq
  have hLblt : (h.MaxLevels - 1).toNat < h.levels.length := by
    have h2c := hc1.2
    rw [hrfl] at h2c
    omega
  have hid1 : ∀ n, ({ h with heap := h.heap ++ [⟨id, [], vec⟩] } : HNSW).heap.get?
      h.heap.length = some n → n.ID = id := by
    intro n hn
    have hn2 : (h.heap ++ [(⟨id, [], vec⟩ : HNSWNode)]).get? h.heap.length = some n := hn
    rw [List.get?_concat_length] at hn2
    rw [← Option.some.inj hn2]
  have hsafe1 : ∀ p ∈ ({ h with heap := h.heap ++ [⟨id, [], vec⟩] } : HNSW).levels.getD
      (h.MaxLevels - 1).toNat [], p.1 = id ∨ p.2 ≠ h.heap.length := by
    intro p hp
    have hin : p ∈ h.levels.getD (h.MaxLevels - 1).toNat [] := hp
    have := hwf.level_refs _ (getD_mem _ _ hLblt) p hin
    exact Or.inr (by omega)
  obtain ⟨hnb1, hlev1, -⟩ := addNodeToLevel_post _ h1 h.heap.length
    (h.MaxLevels - 1).toNat id h1eq hid1 hsafe1
  rw [hrfl] at hlev1
  have hpl1 : AddPlace h.heap.length id h1 (h.MaxLevels - 1).toNat := by
    refine ⟨?_, hnb1⟩
    intro ℓ hℓ
    rw [hlev1] at hℓ ⊢
    rw [List.length_set] at hℓ
    by_cases hLL : ℓ = (h.MaxLevels - 1).toNat
    · rw [hLL, getD_set_self _ _ _ hLblt, mapGet_mapSet_self, if_pos (le_refl _)]
    · rw [getD_set_ne _ _ _ _ (fun hh => hLL hh.symm)]
      rw [hfresh _ (getD_mem _ _ hℓ)]
      have hwl := hwf.levels_len
      rw [if_neg (by omega)]
  obtain ⟨L, hLle, htr2, hpl2⟩ := AddPlace_loop _ _ id vec hrefs0
    (h.MaxLevels - 1).toNat coins h1 h2 htr1 hpl1 h2eq
  obtain ⟨n, hn, hnid, hnvec⟩ := htr2.node
  refine ⟨L, n, ?_, ?_, hn, hnid, hnvec, ?_, ?_⟩
  · show L < h2.levels.length
    have hl2 := htr2.levels_len
    rw [hrfl] at hl2
    omega
  · show mapGet (mapSet h2.nodes id h.heap.length) id = some h.heap.length
    exact mapGet_mapSet_self _ _ _
  · intro ℓ hℓ
    exact hpl2.place ℓ hℓ
  · show findNeighbors { h2 with nodes := mapSet h2.nodes id h.heap.length } n L
      = some n.Neighbors
    rw [findNeighbors_nodes]
    exact hpl2.nb n hn

/-- C2 witness: the amended theorem applied to the counterexample trace's
second insertion (index holding x = [0]; inserting the fresh id "z" with a
propagation coin). -/
theorem C2_shared_node_amended_witness :
    ∃ L n, L < 2 ∧
      (∃ h', AddVector ⟨[⟨"x", [], ⟨"x", [0]⟩⟩], [("x", 0)], [[], [("x", 0)]], 1, 2⟩
          "z" ⟨"z", [1]⟩ [true] = some h' ∧
        mapGet h'.nodes "z" = some 1 ∧
        h'.heap.get? 1 = some n ∧ n.ID = "z" ∧ n.Vector = ⟨"z", [1]⟩ ∧
        (∀ ℓ : Nat, ℓ < h'.levels.length →
          mapGet (h'.levels.getD ℓ []) "z" = if L ≤ ℓ then some 1 else none) ∧
        findNeighbors h' n L = some n.Neighbors) := by
  have hadd : AddVector ⟨[⟨"x", [], ⟨"x", [0]⟩⟩], [("x", 0)], [[], [("x", 0)]], 1, 2⟩
      "z" ⟨"z", [1]⟩ [true]
      = some ⟨[⟨"x", [], ⟨"x", [0]⟩⟩, ⟨"z", [], ⟨"z", [1]⟩⟩],
          [("x", 0), ("z", 1)], [[("z", 1)], [("x", 0), ("z", 1)]], 1, 2⟩ := by
    decide
  obtain ⟨L, n, hL, hflat, hheap, hnid, hnvec, hplace, hnb⟩ :=
    C2_shared_node_amended ⟨[⟨"x", [], ⟨"x", [0]⟩⟩], [("x", 0)], [[], [("x", 0)]], 1, 2⟩
      1 "z" ⟨"z", [1]⟩ [true] _
      ⟨by decide, by decide, by decide, by decide, by decide, by decide⟩
      (by decide) hadd
  exact ⟨L, n, by simpa using hL, _, hadd, hflat, hheap, hnid, hnvec, hplace, hnb⟩

/-- C3 as frozen says AddVector always succeeds, and in particular
silently accepts insertions on an index built with maxLevels = 0. It does
not: with maxLevels = 0 the bottom level index is -1 and the access
`hnsw.levels[-1]` in addNodeToLevel is an index-out-of-range panic. -/
theorem C3_counterexample :
    ((do
        let h ← NewHNSW 5 0
        AddVector h "a" ⟨"a", [0]⟩ []) = (none : Option HNSW)) := by
  decide

/-- C3 (amended): AddVector succeeds on every well-formed index state with
MaxLevels ≥ 1 (nonnegative MaxNeighbors, valid references, a common vector
dimension shared by the inserted vector); on an index constructed with
maxLevels = 0, AddVector fails with an index-out-of-range panic instead of
silently storing nothing, while queries still answer zero results for
every k ≥ 0. -/
theorem C3_addVector_amended :
    (∀ (h : HNSW) (d : Nat) (id : String) (vec : Gector.Vector) (coins : List Bool),
      WF h d → 1 ≤ h.MaxLevels → vec.Values.length = d →
      (AddVector h id vec coins).isSome) ∧
    (∀ (mN : Int) (h : HNSW), NewHNSW mN 0 = some h →
      (∀ (id : String) (vec : Gector.Vector) (coins : List Bool),
        AddVector h id vec coins = none) ∧
      (∀ (q : Gector.Vector) (k : Int), 0 ≤ k → NearestNeighbors h q k = some [])) := by
  constructor
  · intro h d id vec coins hwf hml hvec
    exact AddVector_isSome h id vec coins d hwf hml hvec
  · intro mN h hnew
    rw [NewHNSW, if_pos (le_refl (0 : Int))] at hnew
    rw [← Option.some.inj hnew]
    constructor
    · intro id vec coins
      rw [AddVector_def]
      have hnone : addNodeToLevel
          { (⟨[], [], List.replicate (0 : Int).toNat [], mN, 0⟩ : HNSW) with
            heap := ([] : List HNSWNode) ++ [⟨id, [], vec⟩] }
          ([] : List HNSWNode).length ((0 : Int) - 1) = none := by
        rw [addNodeToLevel, if_neg]
        intro hcon
        omega
      rw [hnone]
      rfl
    · intro q k hk
      rw [NearestNeighbors_def]
      show (levelsLoop ⟨[], [], List.replicate (0 : Int).toNat [], mN, 0⟩ q k 0 []).bind _
        = some []
      rw [levelsLoop, Option.some_bind,
        if_neg (by simp only [List.length_nil]; omega)]

/-- C3 witness: the amended success statement applied at a concrete
one-level index. -/
theorem C3_addVector_amended_witness :
    (AddVector ⟨[], [], [[]], 2, 1⟩ "a" ⟨"a", [5]⟩ []).isSome :=
  C3_addVector_amended.1 ⟨[], [], [[]], 2, 1⟩ 1 "a" ⟨"a", [5]⟩ []
    ⟨by decide, by decide, by decide, by decide, by decide, by decide⟩
    (by decide) (by decide)

/-- C4 as frozen says the empty index answers the empty sequence for any
k; at k = -1 the final truncation of NearestNeighbors slices with a
negative bound and the call panics instead. -/
theorem C4_counterexample :
    ((do
        let h ← NewHNSW 1 1
        NearestNeighbors h ⟨"q", []⟩ (-1))
      = (none : Option (List Gector.Vector))) := by
  decide

/-- C4 (amended): for every index state, query and k ≥ 0, NearestNeighbors
returns at most k vectors whenever it returns at all, and on a freshly
constructed (empty) index it returns the empty sequence for every k ≥ 0
(the unrestricted "for any k" of the claim fails at negative k, see the
counterexample). -/
theorem C4_k_bound_amended :
    (∀ (h : HNSW) (q : Gector.Vector) (k : Int) (res : List Gector.Vector),
      0 ≤ k → NearestNeighbors h q k = some res → (res.length : Int) ≤ k) ∧
    (∀ (mN mL : Int) (h : HNSW) (q : Gector.Vector) (k : Int),
      NewHNSW mN mL = some h → 0 ≤ k → NearestNeighbors h q k = some []) := by
  constructor
  · intro h q k res hk hres
    unfold NearestNeighbors at hres
    obtain ⟨best, hbest, hfin⟩ := Option.bind_eq_some.mp hres
    by_cases hgt : (best.length : Int) > k
    · rw [if_pos hgt, if_neg (by omega)] at hfin
      have htake := Option.some.inj hfin
      have hlen : res.length = min k.toNat best.length := by
        rw [← htake]
        exact List.length_take k.toNat best
      omega
    · rw [if_neg hgt] at hfin
      have := Option.some.inj hfin
      subst this
      omega
  · intro mN mL h q k hnew hk
    unfold NewHNSW at hnew
    by_cases hml : 0 ≤ mL
    · rw [if_pos hml] at hnew
      have hh := Option.some.inj hnew
      subst hh
      unfold NearestNeighbors
      rw [levelsLoop_of_empty_levels]
      · rw [someBind]
        rw [if_neg (by simp only [List.length_nil]; omega)]
      · simp
      · intro ℓ hℓ
        exact getD_replicate_empty _ _
    · rw [if_neg hml] at hnew
      cases hnew

/-- C4 witness: the amended theorem applied at a concrete empty index and
k = 2. -/
theorem C4_k_bound_amended_witness :
    (0 : Int) ≤ 2 ∧
      NearestNeighbors ⟨[], [], [[]], 3, 1⟩ ⟨"q", []⟩ 2 = some [] :=
  ⟨by decide,
    C4_k_bound_amended.2 3 1 ⟨[], [], [[]], 3, 1⟩ ⟨"q", []⟩ 2 (by decide) (by decide)⟩

/-- C8 as frozen says the distance computation fails whenever the two
vectors differ in length; the Go loop only indexes v2 up to the length of
v1, so a shorter first vector succeeds: here lengths 1 and 2 differ, yet
the distance evaluates to 0. -/
theorem C8_counterexample :
    (⟨"a", [0]⟩ : Gector.Vector).Values.length
        ≠ (⟨"b", [0, 1]⟩ : Gector.Vector).Values.length ∧
      euclideanDistance ⟨"a", [0]⟩ ⟨"b", [0, 1]⟩ = some 0 := by
  exact ⟨by decide, by decide⟩

/-- C8 (amended): euclideanDistance fails (index out of bounds) exactly
when the second vector is strictly shorter than the first; when the first
is the shorter one the extra components of the second are ignored and no
failure occurs. -/
theorem C8_distance_failure_amended (v1 v2 : Gector.Vector) :
    euclideanDistance v1 v2 = none ↔ v2.Values.length < v1.Values.length :=
  distAux_eq_none_iff v1.Values v2.Values

/-- C9: the invariant that every node ID present in any level table is a
key of the flat table (with a valid, non-nil node) holds after NewHNSW and
is preserved by AddVector, DeleteVector and UpdateVector; consequently the
flat-table lookup that NearestNeighbors performs for each candidate ID
drawn from a level table never dereferences an absent (nil) node: the
result-collection loop always succeeds. -/
theorem C9_flat_table_invariant :
    (∀ (mN mL : Int) (h : HNSW), NewHNSW mN mL = some h → INV9 h) ∧
    (∀ (h : HNSW) (id : String) (vec : Gector.Vector) (coins : List Bool) (h' : HNSW),
      INV9 h → AddVector h id vec coins = some h' → INV9 h') ∧
    (∀ (h : HNSW) (id : String) (h' : HNSW),
      INV9 h → DeleteVector h id = some h' → INV9 h') ∧
    (∀ (h : HNSW) (id : String) (vec : Gector.Vector) (coins : List Bool) (h' : HNSW),
      INV9 h → UpdateVector h id vec coins = some (Except.ok h') → INV9 h') ∧
    (∀ (h : HNSW) (ids : List String) (acc : List Gector.Vector),
      INV9 h → (∀ id ∈ ids, ∃ lvl ∈ h.levels, ∃ p ∈ lvl, p.1 = id) →
      (pickLoop h ids acc).isSome) :=
  ⟨INV9_NewHNSW, INV9_AddVector, INV9_DeleteVector, INV9_UpdateVector,
    fun h ids acc hinv hids => pickLoop_isSome h hinv ids acc hids⟩

/-- C9 witness: the invariant established at a concrete constructed index,
and the collection loop run on a concrete one-node index. -/
theorem C9_flat_table_invariant_witness :
    INV9 ⟨[], [], [[], []], 4, 2⟩ ∧
      (pickLoop ⟨[⟨"a", [], ⟨"a", [2]⟩⟩], [("a", 0)], [[("a", 0)]], 6, 1⟩ ["a"] []).isSome :=
  ⟨C9_flat_table_invariant.1 4 2 ⟨[], [], [[], []], 4, 2⟩ (by decide),
    C9_flat_table_invariant.2.2.2.2 ⟨[⟨"a", [], ⟨"a", [2]⟩⟩], [("a", 0)], [[("a", 0)]], 6, 1⟩
      ["a"] [] ⟨by decide, by decide, by decide⟩ (by decide)⟩

/-- C10: for every index state and query, a negative k makes
NearestNeighbors fail: the per-level take loops run zero iterations, so
the accumulated result is empty, its length 0 exceeds k, and the final
bestNeighbors[:k] slices with a negative bound (a panic); the function is
total only for k ≥ 0. -/
theorem C10_negative_k_panics (h : HNSW) (q : Gector.Vector) (k : Int)
    (hk : k < 0) : NearestNeighbors h q k = none := by
  unfold NearestNeighbors
  cases hl : levelsLoop h q k h.MaxLevels.toNat [] with
  | none => rfl
  | some best =>
    have hb := levelsLoop_of_nonpos h q k (le_of_lt hk) _ _ _ hl
    subst hb
    rw [someBind, if_pos (by simp only [List.length_nil]; omega), if_pos hk]

/-- C5 as frozen says UpdateVector returns success whenever the id is
present. The re-insertion recomputes distances against the other stored
vectors without any dimension check, so updating a stored id with a longer
vector panics: here the index holds two 1-dimensional vectors, "a" is
present, and UpdateVector("a", [0,0]) fails with an index-out-of-range
panic instead of returning success. -/
theorem C5_counterexample :
    ((do
        let h ← NewHNSW 5 1
        let h ← AddVector h "a" ⟨"a", [0]⟩ []
        let h ← AddVector h "b" ⟨"b", [0]⟩ []
        some ((mapGet h.nodes "a").isSome, (UpdateVector h "a" ⟨"a", [0, 0]⟩ []).isNone))
      = some (true, true)) := by
  decide

/-- C5 (amended): UpdateVector returns the not-found failure exactly when
the id is absent from the flat table; when the id is present and the new
vector has the index's common dimension (so no distance computation can
index out of bounds), it returns success, and a direct flat-table lookup
of the id afterwards yields the new vector's values. -/
theorem C5_update_amended (h : HNSW) (d : Nat) (id : String) (nv : Gector.Vector)
    (coins : List Bool) (hwf : WF h d) (hd : nv.Values.length = d) :
    (mapGet h.nodes id = none →
      UpdateVector h id nv coins
        = some (Except.error ("vector with id " ++ id ++ " not found"))) ∧
    ((mapGet h.nodes id).isSome → 1 ≤ h.MaxLevels →
      ∃ h' n, UpdateVector h id nv coins = some (Except.ok h') ∧
        mapGet h'.nodes id = some h.heap.length ∧
        h'.heap.get? h.heap.length = some n ∧ n.ID = id ∧ n.Vector = nv) := by
  constructor
  · intro habs
    rw [UpdateVector_def, if_neg (by rw [habs]; simp)]
  · intro hpres hml
    have hcond : h.MaxLevels ≤ (h.levels.length : Int) := by
      have h1 := hwf.levels_len
      have h2 := hwf.maxLevels_nonneg
      omega
    have hdel : DeleteVector h id = some { h with
        levels := (h.levels.take h.MaxLevels.toNat).map (fun lvl => mapDelete lvl id)
          ++ h.levels.drop h.MaxLevels.toNat,
        nodes := mapDelete h.nodes id } := by
      rw [DeleteVector, if_pos hcond]
    have hwf1 := WF_DeleteVector h _ id d hwf hdel
    have hadd := AddVector_isSome _ id nv coins d hwf1 hml hd
    obtain ⟨h2, h2eq⟩ := Option.isSome_iff_exists.mp hadd
    obtain ⟨n, hflat, hheap, hnid, hnvec⟩ := AddVector_flat _ id nv coins h2 h2eq
    refine ⟨h2, n, ?_, hflat, hheap, hnid, hnvec⟩
    rw [UpdateVector_def, if_pos hpres, hdel, Option.some_bind, h2eq, Option.some_bind]

/-- C5 witness: the amended theorem applied at a concrete one-node
index. -/
theorem C5_update_amended_witness :
    (mapGet (⟨[⟨"a", [], ⟨"a", [0]⟩⟩], [("a", 0)], [[("a", 0)]], 5, 1⟩ : HNSW).nodes "a"
        = none →
      UpdateVector ⟨[⟨"a", [], ⟨"a", [0]⟩⟩], [("a", 0)], [[("a", 0)]], 5, 1⟩ "a"
          ⟨"a2", [9]⟩ []
        = some (Except.error ("vector with id " ++ "a" ++ " not found"))) ∧
    ((mapGet (⟨[⟨"a", [], ⟨"a", [0]⟩⟩], [("a", 0)], [[("a", 0)]], 5, 1⟩ : HNSW).nodes
        "a").isSome →
      1 ≤ (⟨[⟨"a", [], ⟨"a", [0]⟩⟩], [("a", 0)], [[("a", 0)]], 5, 1⟩ : HNSW).MaxLevels →
      ∃ h' n, UpdateVector ⟨[⟨"a", [], ⟨"a", [0]⟩⟩], [("a", 0)], [[("a", 0)]], 5, 1⟩ "a"
          ⟨"a2", [9]⟩ [] = some (Except.ok h') ∧
        mapGet h'.nodes "a"
          = some (⟨[⟨"a", [], ⟨"a", [0]⟩⟩], [("a", 0)], [[("a", 0)]], 5, 1⟩ : HNSW).heap.length ∧
        h'.heap.get?
            (⟨[⟨"a", [], ⟨"a", [0]⟩⟩], [("a", 0)], [[("a", 0)]], 5, 1⟩ : HNSW).heap.length
          = some n ∧
        n.ID = "a" ∧ n.Vector = ⟨"a2", [9]⟩) :=
  C5_update_amended ⟨[⟨"a", [], ⟨"a", [0]⟩⟩], [("a", 0)], [[("a", 0)]], 5, 1⟩ 1 "a"
    ⟨"a2", [9]⟩ []
    ⟨by decide, by decide, by decide, by decide, by decide, by decide⟩ (by decide)

/-- C6: DeleteVector returns nil for every index state (with the level
slice sized by MaxLevels, as every constructed index is); afterwards the
ID is absent from every level table and from the flat table; it is
idempotent; and deleting a never-inserted ID is a no-op that leaves the
index unchanged. -/
theorem C6_deleteVector (h : HNSW) (id : String)
    (hml : 0 ≤ h.MaxLevels) (hlen : h.levels.length = h.MaxLevels.toNat) :
    ∃ h', DeleteVector h id = some h' ∧
      (∀ ℓ : Nat, ℓ < h'.levels.length → mapGet (h'.levels.getD ℓ []) id = none) ∧
      mapGet h'.nodes id = none ∧
      DeleteVector h' id = some h' ∧
      ((∀ lvl ∈ h.levels, mapGet lvl id = none) → mapGet h.nodes id = none → h' = h) := by
  obtain ⟨hp, nd, lv, mN, mL⟩ := h
  dsimp only at hml hlen ⊢
  have hcond : mL ≤ (lv.length : Int) := by omega
  have htake : lv.take mL.toNat = lv := by
    rw [← hlen]
    exact List.take_length lv
  have hdrop : lv.drop mL.toNat = [] := by
    rw [← hlen]
    exact List.drop_length lv
  refine ⟨⟨hp, mapDelete nd id, lv.map (fun lvl => mapDelete lvl id), mN, mL⟩,
    ?_, ?_, ?_, ?_, ?_⟩
  · rw [DeleteVector]
    dsimp only
    rw [if_pos hcond, htake, hdrop, List.append_nil]
  · intro ℓ hℓ
    dsimp only at hℓ ⊢
    simp only [List.length_map] at hℓ
    have hget : (lv.map (fun lvl => mapDelete lvl id)).getD ℓ []
        = mapDelete (lv.getD ℓ []) id := by
      rw [List.getD_eq_getElem _ _ (by simpa using hℓ), List.getD_eq_getElem _ _ hℓ,
        List.getElem_map]
    rw [hget, mapGet_mapDelete, if_pos rfl]
  · dsimp only
    rw [mapGet_mapDelete, if_pos rfl]
  · rw [DeleteVector]
    have hlen2 : (lv.map (fun lvl => mapDelete lvl id)).length = mL.toNat := by
      simpa using hlen
    rw [if_pos (by simp only [List.length_map]; omega)]
    rw [← hlen2, List.take_length, List.drop_length, List.append_nil]
    have hidem_lv : (lv.map (fun lvl => mapDelete lvl id)).map (fun lvl => mapDelete lvl id)
        = lv.map (fun lvl => mapDelete lvl id) :=
      map_self_of_fixed _ _ (fun lvl' hl' => by
        obtain ⟨lvl, hlv, hfl⟩ := List.mem_map.mp hl'
        rw [← hfl]
        exact mapDelete_of_absent _ _ (by simp [mapGet_mapDelete]))
    rw [hidem_lv, mapDelete_of_absent (mapDelete nd id) id (by simp [mapGet_mapDelete])]
  · intro hlvl hflat
    have hmap : lv.map (fun lvl => mapDelete lvl id) = lv :=
      map_self_of_fixed _ _ (fun lvl hl => mapDelete_of_absent lvl id (hlvl lvl hl))
    rw [hmap, mapDelete_of_absent nd id hflat]

/-- C6 witness: the theorem applied at a concrete one-node index. -/
theorem C6_deleteVector_witness :
    ∃ h', DeleteVector ⟨[⟨"a", [], ⟨"a", [4]⟩⟩], [("a", 0)], [[("a", 0)]], 5, 1⟩ "a"
        = some h' ∧
      (∀ ℓ : Nat, ℓ < h'.levels.length → mapGet (h'.levels.getD ℓ []) "a" = none) ∧
      mapGet h'.nodes "a" = none ∧
      DeleteVector h' "a" = some h' ∧
      ((∀ lvl ∈ (⟨[⟨"a", [], ⟨"a", [4]⟩⟩], [("a", 0)], [[("a", 0)]], 5, 1⟩ : HNSW).levels,
          mapGet lvl "a" = none) →
        mapGet (⟨[⟨"a", [], ⟨"a", [4]⟩⟩], [("a", 0)], [[("a", 0)]], 5, 1⟩ : HNSW).nodes "a"
          = none →
        h' = ⟨[⟨"a", [], ⟨"a", [4]⟩⟩], [("a", 0)], [[("a", 0)]], 5, 1⟩) :=
  C6_deleteVector ⟨[⟨"a", [], ⟨"a", [4]⟩⟩], [("a", 0)], [[("a", 0)]], 5, 1⟩ "a"
    (by decide) (by decide)

/-- C7: in every index reachable from NewHNSW(maxNeighbors ≥ 0,
maxLevels ≥ 1) via the public operations, every stored node's Neighbors
list has at most MaxNeighbors entries and never contains that node's own
ID (stated for every node ever allocated in the arena, a superset of the
stored nodes). -/
theorem C7_neighbor_invariant (h : HNSW) (hr : Reachable h) :
    0 ≤ h.MaxNeighbors ∧ ∀ n ∈ h.heap, NodeOK h.MaxNeighbors n := by
  induction hr with
  | new mN mL hN hL h hnew => exact NInv_NewHNSW mN mL h hN hnew
  | add h id vec coins h' hr hadd ih => exact NInv_AddVector h id vec coins h' ih hadd
  | update h id vec coins h' hr hupd ih => exact NInv_UpdateVector h id vec coins h' ih hupd
  | delete h id h' hr hdel ih => exact NInv_DeleteVector h id h' ih hdel

/-- C7 witness: the invariant at a freshly constructed index reached by
one insertion. -/
theorem C7_neighbor_invariant_witness :
    ∃ h' : HNSW,
      AddVector ⟨[], [], [[], []], 3, 2⟩ "a" ⟨"a", [7]⟩ [] = some h' ∧
      (0 ≤ h'.MaxNeighbors ∧ ∀ n ∈ h'.heap, NodeOK h'.MaxNeighbors n) := by
  refine ⟨⟨[⟨"a", [], ⟨"a", [7]⟩⟩], [("a", 0)], [[], [("a", 0)]], 3, 2⟩, by decide, ?_⟩
  exact C7_neighbor_invariant _
    (Reachable.add ⟨[], [], [[], []], 3, 2⟩ "a" ⟨"a", [7]⟩ [] _
      (Reachable.new 3 2 (by decide) (by decide) _ (by decide)) (by decide))

/-- C10 witness: the theorem applied at a concrete index and k = -1. -/
theorem C10_negative_k_panics_witness :
    (-1 : Int) < 0 ∧
      NearestNeighbors ⟨[], [], [[], []], 2, 2⟩ ⟨"q", [3]⟩ (-1) = none :=
  ⟨by decide, C10_negative_k_panics ⟨[], [], [[], []], 2, 2⟩ ⟨"q", [3]⟩ (-1) (by decide)⟩

end Gector
